import Mathlib

/-!
# In-memory metric data (`internal/data/metric.go`)

A shallow embedding of the Go file `internal/data/metric.go` and of the part of the
Go memory model it relies on.

`MetricData` is a struct holding one pointer `orig *[]*otlpmetrics.ResourceMetrics`.
Every function of the file is about *which storage is shared*, so the embedding keeps an
explicit heap:

* a heap is a list of objects, an address is an index into it, allocation appends;
* a Go slice value is a pair (backing array, length); the elements live in a separate
  backing-array object, so two slice values with the same array share their slots;
* a variable of slice type whose address is taken (`&orig`) is a heap object of its own
  (a *cell*) holding a slice value;
* the OTLP records (`ResourceMetrics`, `InstrumentationLibraryMetrics`, `Metric`) are
  heap objects; their repeated fields are slice values stored inside the record.

Every Go function becomes a function in the monad `Exec` (heap in, result or fault plus
heap out).  Capacity and slice offsets are not modelled: no function of the file appends
to, or re-slices, a slice it has not allocated itself.

Go `int` is a two's-complement integer of `w` bits (32 or 64, depending on the platform);
`w` is a parameter of `MetricCount`, whose running count is an `Int` wrapped to `w` bits
at every addition, as `metricCount += ...` does.  A slice length is a non-negative `int`
by construction, and a loop counter is incremented only while it is below a length, so
lengths and loop counters are natural numbers.
-/

namespace OtlpData

/-! ## The heap -/

/-- An address is an index into the heap. -/
abbrev Addr := Nat

/-- A Go pointer: `none` is `nil`. -/
abbrev Ptr := Option Addr

/-- A Go slice value of pointers: the backing array and the length. The `nil` slice has
no array and length `0`. -/
structure Slice where
  arr : Ptr
  len : Nat
deriving DecidableEq, Repr

/-- The `nil` slice, as written `[]*otlpmetrics.ResourceMetrics(nil)`. -/
def Slice.nil : Slice := ⟨none, 0⟩

/-- Content of an `otlpmetrics.ResourceMetrics` message: the resource (by value) and the
repeated field `InstrumentationLibraryMetrics`. -/
structure RMRec where
  resource : Nat
  ilms : Slice
deriving DecidableEq, Repr

/-- Content of an `otlpmetrics.InstrumentationLibraryMetrics` message: the library (by
value) and the repeated field `Metrics`. -/
structure ILMRec where
  library : Nat
  metrics : Slice
deriving DecidableEq, Repr

/-- Content of an `otlpmetrics.Metric` message: the descriptor and the data points, both
by value. -/
structure MetricRec where
  descriptor : Nat
  points : List Int
deriving DecidableEq, Repr

/-- A heap object. -/
inductive Obj where
  | cell (s : Slice)
  | arr (elems : List Ptr)
  | rm (r : RMRec)
  | ilm (r : ILMRec)
  | metric (r : MetricRec)
deriving DecidableEq, Repr

/-- The heap: object number `a` lives at address `a`. -/
abbrev Heap := List Obj

/-- The ways an execution stops without a result. `illTyped` (a pointer to no object or to
an object of another type) cannot happen in Go and is there to keep the model total;
`outOfFuel` is the model's stand-in for a loop that has not finished. -/
inductive Fault where
  | nilDeref
  | indexOutOfRange
  | illTyped
  | outOfFuel
deriving DecidableEq, Repr

/-- A Go computation: it takes the heap and stops with a fault or returns a value and the
heap it leaves. -/
def Exec (α : Type) : Type := Heap → Except Fault (α × Heap)

/-- Return a value, heap untouched. -/
def Exec.ret {α : Type} (a : α) : Exec α := fun H => .ok (a, H)

/-- Stop with a fault. -/
def Exec.fail {α : Type} (e : Fault) : Exec α := fun _ => .error e

/-- Run `x`, then `f` on its value in the heap `x` left. -/
def Exec.andThen {α β : Type} (x : Exec α) (f : α → Exec β) : Exec β := fun H =>
  match x H with
  | .ok (a, H1) => f a H1
  | .error e => .error e

instance : Monad Exec where
  pure := Exec.ret
  bind := Exec.andThen

/-- Allocation of a new object: it gets the next free address. -/
def alloc (o : Obj) : Exec Addr := fun H => .ok (H.length, H ++ [o])

/-- Read through a pointer. -/
def load (p : Ptr) : Exec Obj := fun H =>
  match p with
  | none => .error .nilDeref
  | some a =>
    match H[a]? with
    | some o => .ok (o, H)
    | none => .error .illTyped

/-- Write through a pointer. -/
def store (p : Ptr) (o : Obj) : Exec Unit := fun H =>
  match p with
  | none => .error .nilDeref
  | some a => if a < H.length then .ok ((), H.set a o) else .error .illTyped

/-- Read of a slice variable through a pointer of type `*[]*T`. -/
def loadCell (p : Ptr) : Exec Slice := do
  match (← load p) with
  | .cell s => pure s
  | _ => Exec.fail .illTyped

/-- Assignment to a slice variable through a pointer of type `*[]*T`. -/
def storeCell (p : Ptr) (s : Slice) : Exec Unit := do
  let _ ← loadCell p
  store p (.cell s)

/-- Read through a `*otlpmetrics.ResourceMetrics`. -/
def loadRM (p : Ptr) : Exec RMRec := do
  match (← load p) with
  | .rm r => pure r
  | _ => Exec.fail .illTyped

/-- Read through a `*otlpmetrics.InstrumentationLibraryMetrics`. -/
def loadILM (p : Ptr) : Exec ILMRec := do
  match (← load p) with
  | .ilm r => pure r
  | _ => Exec.fail .illTyped

/-- Read through a `*otlpmetrics.Metric`. -/
def loadMetric (p : Ptr) : Exec MetricRec := do
  match (← load p) with
  | .metric r => pure r
  | _ => Exec.fail .illTyped

/-- The elements of a slice value, read from its backing array. -/
def Heap.elems (H : Heap) (s : Slice) : Option (List Ptr) :=
  match s.arr with
  | none => if s.len = 0 then some [] else none
  | some a =>
    match H[a]? with
    | some (.arr es) => if s.len ≤ es.length then some (es.take s.len) else none
    | _ => none

/-- The elements of a slice value, as a computation (`range s`). -/
def readSlice (s : Slice) : Exec (List Ptr) := fun H =>
  match H.elems s with
  | some es => .ok (es, H)
  | none => .error .illTyped

/-- A slice value over a new backing array holding `ps`. -/
def makeSlice (ps : List Ptr) : Exec Slice := do
  let a ← alloc (.arr ps)
  pure ⟨some a, ps.length⟩

/-! ## Wrappers declared outside `metric.go` -/

/-- Modelled from the spec: the generated type `ResourceMetricsSlice` (SliceView over the
root sequence) is missing from the sources; `SetResourceMetrics` reads `*v.orig` as a
`[]*otlpmetrics.ResourceMetrics`, so the view holds an indirection to a slice variable. -/
structure ResourceMetricsSlice where
  orig : Ptr
deriving DecidableEq, Repr

/-- Modelled from the spec: the generated wrapper `ResourceMetrics` returned by `Get`, a
non-owning wrapper of one resource-metrics record. -/
structure ResourceMetrics where
  orig : Ptr
deriving DecidableEq, Repr

/-- Modelled from the spec: the generated SliceView over the repeated field
`InstrumentationLibraryMetrics` of one resource-metrics record; `owner` is the record
whose field is aliased. -/
structure InstrumentationLibraryMetricsSlice where
  owner : Ptr
deriving DecidableEq, Repr

/-- Modelled from the spec: the generated wrapper `InstrumentationLibraryMetrics`, a
non-owning wrapper of one instrumentation-library-metrics record. -/
structure InstrumentationLibraryMetrics where
  orig : Ptr
deriving DecidableEq, Repr

/-- Modelled from the spec: the generated SliceView over the repeated field `Metrics` of
one instrumentation-library-metrics record; `owner` is the record whose field is
aliased. -/
structure MetricSlice where
  owner : Ptr
deriving DecidableEq, Repr

/-- Modelled from the spec: the generated constructor `newResourceMetricsSlice`; a
SliceView is "constructed only from an existing indirection to a repeated field; never
independently allocates". -/
def newResourceMetricsSlice (orig : Ptr) : ResourceMetricsSlice := ⟨orig⟩

/-- Modelled from the spec: `length()` of the generated `ResourceMetricsSlice`, the
"current element count of the aliased field (reflects live state)". -/
def ResourceMetricsSlice.Len (es : ResourceMetricsSlice) : Exec Nat := do
  let s ← loadCell es.orig
  pure s.len

/-- Modelled from the spec: `get(i)` of the generated `ResourceMetricsSlice`; it "returns
the element at position i, as a further non-owning wrapper", and "out-of-range access is
a precondition violation (fails with IndexOutOfRange)". -/
def ResourceMetricsSlice.Get (es : ResourceMetricsSlice) (ix : Nat) :
    Exec ResourceMetrics := do
  let s ← loadCell es.orig
  if ix < s.len then
    match (← readSlice s)[ix]? with
    | some p => pure ⟨p⟩
    | none => Exec.fail .illTyped
  else Exec.fail .indexOutOfRange

/-- Modelled from the spec: the generated accessor `InstrumentationLibraryMetrics()` of a
`ResourceMetrics` wrapper; it takes the address of the repeated field of the record, so
the record is dereferenced (a `nil` record faults). -/
def ResourceMetrics.InstrumentationLibraryMetrics (ms : ResourceMetrics) :
    Exec InstrumentationLibraryMetricsSlice := do
  let _ ← loadRM ms.orig
  pure ⟨ms.orig⟩

/-- Modelled from the spec: `length()` of the generated
`InstrumentationLibraryMetricsSlice`. -/
def InstrumentationLibraryMetricsSlice.Len (es : InstrumentationLibraryMetricsSlice) :
    Exec Nat := do
  let r ← loadRM es.owner
  pure r.ilms.len

/-- Modelled from the spec: `get(i)` of the generated
`InstrumentationLibraryMetricsSlice`. -/
def InstrumentationLibraryMetricsSlice.Get (es : InstrumentationLibraryMetricsSlice)
    (ix : Nat) : Exec InstrumentationLibraryMetrics := do
  let r ← loadRM es.owner
  if ix < r.ilms.len then
    match (← readSlice r.ilms)[ix]? with
    | some p => pure ⟨p⟩
    | none => Exec.fail .illTyped
  else Exec.fail .indexOutOfRange

/-- Modelled from the spec: the generated accessor `Metrics()` of an
`InstrumentationLibraryMetrics` wrapper ("an instrumentation-library-metrics wrapper
exposes its own metrics SliceView"). -/
def InstrumentationLibraryMetrics.Metrics (ms : InstrumentationLibraryMetrics) :
    Exec MetricSlice := do
  let _ ← loadILM ms.orig
  pure ⟨ms.orig⟩

/-- Modelled from the spec: `length()` of the generated `MetricSlice`. -/
def MetricSlice.Len (es : MetricSlice) : Exec Nat := do
  let r ← loadILM es.owner
  pure r.metrics.len

/-- Modelled from the spec: reading the record behind a `ResourceMetrics` wrapper (what
its field getters do). -/
def ResourceMetrics.read (ms : ResourceMetrics) : Exec RMRec := loadRM ms.orig

/-- Modelled from the spec: mutation of an element through its `ResourceMetrics`
wrapper (what its field setters do): the record behind the wrapper is overwritten in
place. -/
def ResourceMetrics.write (ms : ResourceMetrics) (r : RMRec) : Exec Unit := do
  let _ ← loadRM ms.orig
  store ms.orig (.rm r)

/-! ## `metric.go` -/

/-- The struct `MetricData { orig *[]*otlpmetrics.ResourceMetrics }`. The zero value,
`orig = nil`, is the invalid instance. -/
structure MetricData where
  orig : Ptr
deriving DecidableEq, Repr

/-- `MetricDataFromOtlp(orig)`: `return MetricData{&orig}`. The parameter `orig` is a
variable of the callee holding a copy of the slice value passed; taking its address moves
that variable to the heap. -/
def MetricDataFromOtlp (orig : Slice) : Exec MetricData := do
  let a ← alloc (.cell orig)
  pure ⟨some a⟩

/-- `MetricDataToOtlp(md)`: `return *md.orig`. -/
def MetricDataToOtlp (md : MetricData) : Exec Slice :=
  loadCell md.orig

/-- `NewMetricData()`: a new variable `orig` holding the `nil` slice, and its address. -/
def NewMetricData : Exec MetricData := do
  let a ← alloc (.cell Slice.nil)
  pure ⟨some a⟩

/-- Modelled from the spec: `proto.Clone` of the protobuf library on an
`*otlpmetrics.Metric` ("a deep, structurally-equal but storage-independent copy"): `nil`
gives `nil`, a record gives a new record with the same content. -/
def cloneMetric : Ptr → Exec Ptr
  | none => pure none
  | some a => do
    let r ← loadMetric (some a)
    let b ← alloc (.metric r)
    pure (some b)

/-- Copy of a list of element pointers, one after the other, with `clone`. -/
def cloneAll (clone : Ptr → Exec Ptr) : List Ptr → Exec (List Ptr)
  | [] => pure []
  | p :: ps => do
    let q ← clone p
    let qs ← cloneAll clone ps
    pure (q :: qs)

/-- Copy of a repeated field: the elements are copied with `clone` and put in a new
backing array. -/
def cloneSlice (clone : Ptr → Exec Ptr) (s : Slice) : Exec Slice := do
  let es ← readSlice s
  let qs ← cloneAll clone es
  makeSlice qs

/-- Modelled from the spec: `proto.Clone` on an
`*otlpmetrics.InstrumentationLibraryMetrics`: the record and, recursively, its metrics. -/
def cloneILM : Ptr → Exec Ptr
  | none => pure none
  | some a => do
    let r ← loadILM (some a)
    let ms ← cloneSlice cloneMetric r.metrics
    let b ← alloc (.ilm ⟨r.library, ms⟩)
    pure (some b)

/-- Modelled from the spec: `proto.Clone` of the protobuf library on an
`*otlpmetrics.ResourceMetrics`, the call made by `MetricData.Clone`: the record and,
recursively, its instrumentation-library-metrics records. -/
def protoClone : Ptr → Exec Ptr
  | none => pure none
  | some a => do
    let r ← loadRM (some a)
    let ils ← cloneSlice cloneILM r.ilms
    let b ← alloc (.rm ⟨r.resource, ils⟩)
    pure (some b)

/-- The loop of `Clone`: `for _, resourceMetrics := range otlp` with the body
`resourceMetricsClones = append(resourceMetricsClones, proto.Clone(resourceMetrics))`.
The first argument is what is left of the range, the second the local slice
`resourceMetricsClones`, which nothing else refers to during the loop. -/
def MetricData.Clone.loop : List Ptr → List Ptr → Exec (List Ptr)
  | [], resourceMetricsClones => pure resourceMetricsClones
  | resourceMetrics :: rest, resourceMetricsClones => do
    let c ← protoClone resourceMetrics
    MetricData.Clone.loop rest (resourceMetricsClones ++ [c])

/-- `md.Clone()`: the root sequence is read, every element is cloned with `proto.Clone`,
the clones are collected in a new slice and that slice is wrapped by
`MetricDataFromOtlp`. The elements of the range are read before the loop, which is the
same as reading them one by one: the loop allocates and writes to no existing object.
The backing array of `resourceMetricsClones`, made with `make` and filled by `append`,
is allocated when the loop is over, with the clones in it. -/
def MetricData.Clone (md : MetricData) : Exec MetricData := do
  let otlp ← MetricDataToOtlp md
  let range ← readSlice otlp
  let resourceMetricsClones ← MetricData.Clone.loop range []
  let s ← makeSlice resourceMetricsClones
  MetricDataFromOtlp s

/-- `md.ResourceMetrics()`: `return newResourceMetricsSlice(md.orig)`. -/
def MetricData.ResourceMetrics (md : MetricData) : ResourceMetricsSlice :=
  newResourceMetricsSlice md.orig

/-- `md.SetResourceMetrics(v)`: `*md.orig = *v.orig`. -/
def MetricData.SetResourceMetrics (md : MetricData) (v : ResourceMetricsSlice) :
    Exec Unit := do
  let s ← loadCell v.orig
  storeCell md.orig s

/-- A Go `int` of `w` bits computed from the mathematical value `x`: the two's-complement
representative of `x` modulo `2 ^ w`, which lies in `[-2 ^ (w - 1), 2 ^ (w - 1))`. -/
def wrapInt (w : Nat) (x : Int) : Int :=
  (x + 2 ^ (w - 1)) % 2 ^ w - 2 ^ (w - 1)

/-- The inner loop of `MetricCount`, `for j := 0; j < ils.Len(); j++`, started at `j`
with the running `metricCount`, an `int` of `w` bits: `metricCount += k` wraps. The
argument after `ils` bounds the number of times the loop condition is evaluated. -/
def MetricData.MetricCount.inner (w : Nat) (ils : InstrumentationLibraryMetricsSlice) :
    Nat → Nat → Int → Exec Int
  | 0, _, _ => Exec.fail .outOfFuel
  | fuel + 1, j, metricCount => do
    let n ← ils.Len
    if j < n then
      let e ← ils.Get j
      let ms ← e.Metrics
      let k ← ms.Len
      MetricData.MetricCount.inner w ils fuel (j + 1) (wrapInt w (metricCount + k))
    else pure metricCount

/-- The outer loop of `MetricCount`, `for i := 0; i < rms.Len(); i++`, started at `i`
with the running `metricCount`; `fuel` is handed to every inner loop, the next argument
bounds the number of times the loop condition is evaluated. -/
def MetricData.MetricCount.outer (w : Nat) (rms : ResourceMetricsSlice) (fuel : Nat) :
    Nat → Nat → Int → Exec Int
  | 0, _, _ => Exec.fail .outOfFuel
  | rest + 1, i, metricCount => do
    let n ← rms.Len
    if i < n then
      let e ← rms.Get i
      let ils ← e.InstrumentationLibraryMetrics
      let metricCount ← MetricData.MetricCount.inner w ils fuel 0 metricCount
      MetricData.MetricCount.outer w rms fuel rest (i + 1) metricCount
    else pure metricCount

/-- `md.MetricCount()` on a platform whose `int` has `w` bits, every loop allowed `fuel`
evaluations of its condition. The result is a Go `int`. -/
def MetricData.MetricCount (md : MetricData) (w fuel : Nat) : Exec Int :=
  MetricData.MetricCount.outer w md.ResourceMetrics fuel fuel 0 0

/-! ## `MetricType` -/

/-- Modelled from the spec: the enum type `otlpmetrics.MetricDescriptor_Type` of the wire
schema, an `int32`. -/
structure MetricDescriptor_Type where
  tag : Int
deriving DecidableEq, Repr

/-- Modelled from the spec: wire tag of `UNSPECIFIED`. -/
def MetricDescriptor_UNSPECIFIED : MetricDescriptor_Type := ⟨0⟩
/-- Modelled from the spec: wire tag of `GAUGE_INT64`. -/
def MetricDescriptor_GAUGE_INT64 : MetricDescriptor_Type := ⟨1⟩
/-- Modelled from the spec: wire tag of `GAUGE_DOUBLE`. -/
def MetricDescriptor_GAUGE_DOUBLE : MetricDescriptor_Type := ⟨2⟩
/-- Modelled from the spec: wire tag of `GAUGE_HISTOGRAM`. -/
def MetricDescriptor_GAUGE_HISTOGRAM : MetricDescriptor_Type := ⟨3⟩
/-- Modelled from the spec: wire tag of `COUNTER_INT64`. -/
def MetricDescriptor_COUNTER_INT64 : MetricDescriptor_Type := ⟨4⟩
/-- Modelled from the spec: wire tag of `COUNTER_DOUBLE`. -/
def MetricDescriptor_COUNTER_DOUBLE : MetricDescriptor_Type := ⟨5⟩
/-- Modelled from the spec: wire tag of `CUMULATIVE_HISTOGRAM`. -/
def MetricDescriptor_CUMULATIVE_HISTOGRAM : MetricDescriptor_Type := ⟨6⟩
/-- Modelled from the spec: wire tag of `SUMMARY`. -/
def MetricDescriptor_SUMMARY : MetricDescriptor_Type := ⟨7⟩

/-- `type MetricType otlpmetrics.MetricDescriptor_Type`: a new type with the same
underlying `int32`. -/
structure MetricType where
  tag : Int
deriving DecidableEq, Repr

/-- The Go conversion `MetricType(t)`, which keeps the number. -/
def MetricType.ofWire (t : MetricDescriptor_Type) : MetricType := ⟨t.tag⟩

/-- The Go conversion `otlpmetrics.MetricDescriptor_Type(t)`, which keeps the number. -/
def MetricType.toWire (t : MetricType) : MetricDescriptor_Type := ⟨t.tag⟩

def MetricTypeUnspecified : MetricType := MetricType.ofWire MetricDescriptor_UNSPECIFIED
def MetricTypeGaugeInt64 : MetricType := MetricType.ofWire MetricDescriptor_GAUGE_INT64
def MetricTypeGaugeDouble : MetricType := MetricType.ofWire MetricDescriptor_GAUGE_DOUBLE
def MetricTypeGaugeHistogram : MetricType := MetricType.ofWire MetricDescriptor_GAUGE_HISTOGRAM
def MetricTypeCounterInt64 : MetricType := MetricType.ofWire MetricDescriptor_COUNTER_INT64
def MetricTypeCounterDouble : MetricType := MetricType.ofWire MetricDescriptor_COUNTER_DOUBLE
def MetricTypeCumulativeHistogram : MetricType :=
  MetricType.ofWire MetricDescriptor_CUMULATIVE_HISTOGRAM
def MetricTypeSummary : MetricType := MetricType.ofWire MetricDescriptor_SUMMARY

/-- The constants of the `const` block, in the order they are declared. -/
def MetricType.constants : List MetricType :=
  [MetricTypeUnspecified, MetricTypeGaugeInt64, MetricTypeGaugeDouble,
   MetricTypeGaugeHistogram, MetricTypeCounterInt64, MetricTypeCounterDouble,
   MetricTypeCumulativeHistogram, MetricTypeSummary]

/-! ## What a handle denotes, and what it reaches

The value of a graph (`view`) is what the spec calls its structure: the records in their
order, with their content, whatever the addresses.  The footprint of a graph is the list
of the addresses that belong to it: the cell, the backing arrays and the records.  A
mutation made through a handle is a write to an address of its footprint. -/

/-- The value of an instrumentation-library-metrics record; a `nil` metric is `none`. -/
structure ILMView where
  library : Nat
  metrics : List (Option MetricRec)
deriving DecidableEq, Repr

/-- The value of a resource-metrics record; a `nil` library record is `none`. -/
structure RMView where
  resource : Nat
  ilms : List (Option ILMView)
deriving DecidableEq, Repr

/-- The value of a root sequence; a `nil` resource-metrics record is `none`. -/
abbrev GraphView := List (Option RMView)

/-- All the values `f` gives on a list, when it gives one on each element. -/
def viewAll {α β : Type} (f : α → Option β) : List α → Option (List β)
  | [] => some []
  | a :: as =>
    match f a with
    | none => none
    | some b =>
      match viewAll f as with
      | none => none
      | some bs => some (b :: bs)

/-- The value of a slice, given the value of an element. -/
def Heap.viewSlice {β : Type} (view : Heap → Ptr → Option β) (H : Heap) (s : Slice) :
    Option (List β) :=
  match H.elems s with
  | none => none
  | some es => viewAll (view H) es

/-- The value behind a `*otlpmetrics.Metric`. -/
def Heap.viewMetric (H : Heap) : Ptr → Option (Option MetricRec)
  | none => some none
  | some a =>
    match H[a]? with
    | some (.metric r) => some (some r)
    | _ => none

/-- The value behind a `*otlpmetrics.InstrumentationLibraryMetrics`. -/
def Heap.viewILM (H : Heap) : Ptr → Option (Option ILMView)
  | none => some none
  | some a =>
    match H[a]? with
    | some (.ilm r) =>
      match H.viewSlice Heap.viewMetric r.metrics with
      | some ms => some (some ⟨r.library, ms⟩)
      | none => none
    | _ => none

/-- The value behind a `*otlpmetrics.ResourceMetrics`. -/
def Heap.viewRM (H : Heap) : Ptr → Option (Option RMView)
  | none => some none
  | some a =>
    match H[a]? with
    | some (.rm r) =>
      match H.viewSlice Heap.viewILM r.ilms with
      | some ls => some (some ⟨r.resource, ls⟩)
      | none => none
    | _ => none

/-- The value of the graph behind a `MetricData`; there is none for the zero value, nor in
a heap that is not well typed below the handle. -/
def MetricData.view (md : MetricData) (H : Heap) : Option GraphView :=
  match md.orig with
  | none => none
  | some a =>
    match H[a]? with
    | some (.cell s) => H.viewSlice Heap.viewRM s
    | _ => none

/-- The addresses of a slice: its backing array and what its elements reach. -/
def Heap.fpSlice (fp : Heap → Ptr → List Addr) (H : Heap) (s : Slice) : List Addr :=
  match s.arr with
  | none => []
  | some a =>
    a :: (match H.elems s with
          | some es => es.flatMap (fp H)
          | none => [])

/-- The addresses reached from a `*otlpmetrics.Metric`. -/
def Heap.fpMetric (_H : Heap) : Ptr → List Addr
  | none => []
  | some a => [a]

/-- The addresses reached from a `*otlpmetrics.InstrumentationLibraryMetrics`. -/
def Heap.fpILM (H : Heap) : Ptr → List Addr
  | none => []
  | some a =>
    a :: (match H[a]? with
          | some (.ilm r) => H.fpSlice Heap.fpMetric r.metrics
          | _ => [])

/-- The addresses reached from a `*otlpmetrics.ResourceMetrics`. -/
def Heap.fpRM (H : Heap) : Ptr → List Addr
  | none => []
  | some a =>
    a :: (match H[a]? with
          | some (.rm r) => H.fpSlice Heap.fpILM r.ilms
          | _ => [])

/-- The addresses reached from a `MetricData`: its cell, the root backing array, the
records, their backing arrays, down to the metrics. -/
def MetricData.footprint (md : MetricData) (H : Heap) : List Addr :=
  match md.orig with
  | none => []
  | some a =>
    a :: (match H[a]? with
          | some (.cell s) => H.fpSlice Heap.fpRM s
          | _ => [])

/-- The length of the metrics sequence of a library record. -/
def ILMView.metricCount : Option ILMView → Nat
  | none => 0
  | some l => l.metrics.length

/-- The sum, over the library records of a resource-metrics record, of the lengths of their
metrics sequences. -/
def RMView.metricCount : Option RMView → Nat
  | none => 0
  | some r => (r.ilms.map ILMView.metricCount).sum

/-- The count as the spec words it: the sum, over every resource-metrics record and every
instrumentation-library-metrics record inside it, of the length of its metrics
sequence. -/
def GraphView.metricCount (t : GraphView) : Nat :=
  (t.map RMView.metricCount).sum

/-- One step of the count in `int` arithmetic of `w` bits: the length of the metrics
sequence of a library record is added to the running count, and the result wraps. -/
def ILMView.addCount (w : Nat) (acc : Int) (l : Option ILMView) : Int :=
  wrapInt w (acc + (ILMView.metricCount l : Nat))

/-- The running count after the library records of a resource-metrics record, in `int`
arithmetic of `w` bits. -/
def RMView.addCount (w : Nat) (acc : Int) : Option RMView → Int
  | none => acc
  | some r => r.ilms.foldl (ILMView.addCount w) acc

/-- The count of a graph in `int` arithmetic of `w` bits, started at 0. -/
def GraphView.goCount (w : Nat) (t : GraphView) : Int :=
  t.foldl (RMView.addCount w) 0

/-- No `nil` record in the root sequence nor in a nested library sequence. -/
def GraphView.noNull (t : GraphView) : Bool :=
  t.all fun r =>
    match r with
    | none => false
    | some r => r.ilms.all fun l => l.isSome

/-- The number of resource-metrics and library records of a graph: more fuel than this lets
every loop of `MetricCount` finish. -/
def GraphView.size (t : GraphView) : Nat :=
  t.length + (t.map fun r =>
    match r with
    | none => 0
    | some r => r.ilms.length).sum

/-- A heap `H1` extends `H` when it is `H` followed by new objects. -/
def Heap.Extends (H H1 : Heap) : Prop := ∃ t, H1 = H ++ t

/-! ## Sample heaps -/

/-- A heap with two resource-metrics records, each with one library record, holding 3 and
5 metrics; the root backing array is at 16 and a slice variable over it at 17. -/
def sampleHeap : Heap :=
  [ .metric ⟨1, [10]⟩, .metric ⟨2, [20, 21]⟩, .metric ⟨3, []⟩,
    .arr [some 0, some 1, some 2],
    .ilm ⟨70, ⟨some 3, 3⟩⟩,
    .arr [some 4],
    .rm ⟨90, ⟨some 5, 1⟩⟩,
    .metric ⟨4, [40]⟩, .metric ⟨5, [50]⟩, .metric ⟨6, [60]⟩, .metric ⟨7, [70]⟩,
    .metric ⟨8, [80]⟩,
    .arr [some 7, some 8, some 9, some 10, some 11],
    .ilm ⟨71, ⟨some 12, 5⟩⟩,
    .arr [some 13],
    .rm ⟨91, ⟨some 14, 1⟩⟩,
    .arr [some 6, some 15],
    .cell ⟨some 16, 2⟩ ]

/-- The handle over the slice variable of `sampleHeap`. -/
def sampleMd : MetricData := ⟨some 17⟩

/-- The value of the graph of `sampleHeap`. -/
def sampleView : GraphView :=
  [ some ⟨90, [some ⟨70, [some ⟨1, [10]⟩, some ⟨2, [20, 21]⟩, some ⟨3, []⟩]⟩]⟩,
    some ⟨91, [some ⟨71, [some ⟨4, [40]⟩, some ⟨5, [50]⟩, some ⟨6, [60]⟩, some ⟨7, [70]⟩,
      some ⟨8, [80]⟩]⟩]⟩ ]

/-- A heap whose root sequence holds one `nil` record: the backing array at 0, a slice
variable over it at 1. -/
def nilRecordHeap : Heap := [ .arr [none], .cell ⟨some 0, 1⟩ ]

/-- A heap with two graphs: `g`, the slice `⟨some 2, 1⟩` over the record at 0, held by the
caller's variable at 4, and the slice over the record at 1, held by the variable at 5 that
a view `v` refers to. -/
def twoGraphHeap : Heap :=
  [ .rm ⟨90, Slice.nil⟩, .rm ⟨91, Slice.nil⟩,
    .arr [some 0], .arr [some 1],
    .cell ⟨some 2, 1⟩, .cell ⟨some 3, 1⟩ ]

/-- A heap of seven objects with no `nil` record, where every slice holds `n` times the
same pointer: one metric, one library record with `n` metrics, one resource-metrics
record with `n` library records, a root sequence of `n` records, and a slice variable
over it at 6. Its metric count is `n * n * n`. -/
def overflowHeap (n : Nat) : Heap :=
  [ .metric ⟨1, []⟩,
    .arr (List.replicate n (some 0)),
    .ilm ⟨70, ⟨some 1, n⟩⟩,
    .arr (List.replicate n (some 2)),
    .rm ⟨90, ⟨some 3, n⟩⟩,
    .arr (List.replicate n (some 4)),
    .cell ⟨some 5, n⟩ ]

/-- The handle over the slice variable of `overflowHeap`. -/
def overflowMd : MetricData := ⟨some 6⟩

/-- The value of the graph of `overflowHeap n`. -/
def overflowView (n : Nat) : GraphView :=
  List.replicate n (some ⟨90, List.replicate n (some ⟨70, List.replicate n (some ⟨1, []⟩)⟩)⟩)

/-- The handle over the slice variable of `nilRecordHeap`. -/
def nilRecordMd : MetricData := ⟨some 1⟩

/-- The slice `g` of `twoGraphHeap`: one element, the record at 0. -/
def graphSlice : Slice := ⟨some 2, 1⟩

/-- The other slice of `twoGraphHeap`: one element, the record at 1. -/
def otherSlice : Slice := ⟨some 3, 1⟩

/-- A handle over the variable of `twoGraphHeap` that holds `graphSlice`. -/
def graphMd : MetricData := ⟨some 4⟩

/-- A view over the variable of `twoGraphHeap` that holds `otherSlice`. -/
def otherView : ResourceMetricsSlice := ⟨some 5⟩

/-! ## Properties of a level of the graph -/

/-- The value and the footprint of `k` depend only on the objects at the addresses of the
footprint. -/
def FrameLocal {κ β : Type} (view : Heap → κ → Option β) (fp : Heap → κ → List Addr) :
    Prop :=
  ∀ (H H1 : Heap) (k : κ) (v : β), view H k = some v →
    (∀ a ∈ fp H k, H1[a]? = H[a]?) → view H1 k = some v ∧ fp H1 k = fp H k

/-- What has a value reaches allocated addresses only. -/
def Bounded {κ β : Type} (view : Heap → κ → Option β) (fp : Heap → κ → List Addr) :
    Prop :=
  ∀ (H : Heap) (k : κ) (v : β), view H k = some v → ∀ a ∈ fp H k, a < H.length

/-- The computation `clone` is a deep copy: on what has a value it returns, in an extended
heap, a pointer with the same value that reaches new addresses only. -/
def Clones {β : Type} (view : Heap → Ptr → Option β) (fp : Heap → Ptr → List Addr)
    (clone : Ptr → Exec Ptr) : Prop :=
  ∀ (H : Heap) (p : Ptr) (v : β), view H p = some v →
    ∃ q H1, clone p H = .ok (q, H1) ∧ H.Extends H1 ∧ view H1 q = some v ∧
      ∀ a ∈ fp H1 q, H.length ≤ a

/-- Equality of results is decidable. -/
instance instDecidableEqExcept {ε α : Type} [DecidableEq ε] [DecidableEq α] :
    DecidableEq (Except ε α) := fun x y =>
  match x, y with
  | .ok a, .ok b =>
    if h : a = b then isTrue (by rw [h]) else isFalse (fun e => h (by cases e; rfl))
  | .error a, .error b =>
    if h : a = b then isTrue (by rw [h]) else isFalse (fun e => h (by cases e; rfl))
  | .ok _, .error _ => isFalse (fun e => by cases e)
  | .error _, .ok _ => isFalse (fun e => by cases e)

/-! ## The monad -/

theorem Exec.bind_apply {α β : Type} (x : Exec α) (f : α → Exec β) (H : Heap) :
    (x >>= f) H = match x H with
      | .ok (a, H1) => f a H1
      | .error e => .error e := rfl

theorem Exec.pure_apply {α : Type} (a : α) (H : Heap) :
    (pure a : Exec α) H = .ok (a, H) := rfl

theorem Exec.bind_ok {α β : Type} {x : Exec α} {f : α → Exec β} {H H1 : Heap} {a : α}
    (h : x H = .ok (a, H1)) : (x >>= f) H = f a H1 := by
  rw [Exec.bind_apply, h]

/-! ## Reads -/

theorem load_ok {H : Heap} {a : Addr} {o : Obj} (h : H[a]? = some o) :
    load (some a) H = .ok (o, H) := by
  simp only [load, h]

theorem loadCell_ok {H : Heap} {a : Addr} {s : Slice} (h : H[a]? = some (.cell s)) :
    loadCell (some a) H = .ok (s, H) := by
  unfold loadCell
  rw [Exec.bind_ok (load_ok h)]
  rfl

theorem loadRM_ok {H : Heap} {a : Addr} {r : RMRec} (h : H[a]? = some (.rm r)) :
    loadRM (some a) H = .ok (r, H) := by
  unfold loadRM
  rw [Exec.bind_ok (load_ok h)]
  rfl

theorem loadILM_ok {H : Heap} {a : Addr} {r : ILMRec} (h : H[a]? = some (.ilm r)) :
    loadILM (some a) H = .ok (r, H) := by
  unfold loadILM
  rw [Exec.bind_ok (load_ok h)]
  rfl

theorem loadMetric_ok {H : Heap} {a : Addr} {r : MetricRec}
    (h : H[a]? = some (.metric r)) : loadMetric (some a) H = .ok (r, H) := by
  unfold loadMetric
  rw [Exec.bind_ok (load_ok h)]
  rfl

theorem readSlice_ok {H : Heap} {s : Slice} {es : List Ptr} (h : H.elems s = some es) :
    readSlice s H = .ok (es, H) := by
  simp only [readSlice, h]

/-- A read of a slice variable that succeeds finds a cell and leaves the heap alone. -/
theorem loadCell_inv {H H1 : Heap} {p : Ptr} {s : Slice}
    (h : loadCell p H = .ok (s, H1)) :
    H1 = H ∧ ∃ a, p = some a ∧ H[a]? = some (.cell s) := by
  unfold loadCell at h
  rw [Exec.bind_apply] at h
  cases p with
  | none => simp [load] at h
  | some a =>
    cases hq : H[a]? with
    | none => simp [load, hq] at h
    | some o =>
      rw [load_ok hq] at h
      cases o <;> simp [Exec.pure_apply, Exec.fail] at h
      exact ⟨h.2.symm, a, rfl, by rw [← h.1]; exact hq⟩

/-! ## Extension of the heap -/

theorem Heap.Extends.refl (H : Heap) : H.Extends H := ⟨[], by simp⟩

theorem Heap.Extends.trans {H H1 H2 : Heap} (h1 : H.Extends H1) (h2 : H1.Extends H2) :
    H.Extends H2 := by
  obtain ⟨t1, rfl⟩ := h1
  obtain ⟨t2, rfl⟩ := h2
  exact ⟨t1 ++ t2, by simp⟩

theorem Heap.Extends.snoc (H : Heap) (o : Obj) : H.Extends (H ++ [o]) := ⟨[o], rfl⟩

theorem Heap.Extends.get {H H1 : Heap} (h : H.Extends H1) {a : Addr} (ha : a < H.length) :
    H1[a]? = H[a]? := by
  obtain ⟨t, rfl⟩ := h
  exact List.getElem?_append_left ha

theorem Heap.Extends.length_le {H H1 : Heap} (h : H.Extends H1) : H.length ≤ H1.length := by
  obtain ⟨t, rfl⟩ := h
  simp

theorem lt_length_of_get {H : Heap} {a : Addr} {o : Obj} (h : H[a]? = some o) :
    a < H.length := by
  obtain ⟨hlt, _⟩ := List.getElem?_eq_some.mp h
  exact hlt

/-- What has a value keeps its value and its footprint when the heap is extended. -/
theorem view_of_extends {κ β : Type} {view : Heap → κ → Option β}
    {fp : Heap → κ → List Addr} (hl : FrameLocal view fp) (hb : Bounded view fp)
    {H H1 : Heap} {k : κ} {v : β} (hv : view H k = some v) (he : H.Extends H1) :
    view H1 k = some v ∧ fp H1 k = fp H k :=
  hl H H1 k v hv (fun a ha => he.get (hb H k v hv a ha))

/-! ## Sequences and slices -/

theorem viewAll_cons_some {α β : Type} {f : α → Option β} {a : α} {as : List α}
    {vs : List β} :
    viewAll f (a :: as) = some vs ↔
      ∃ b bs, f a = some b ∧ viewAll f as = some bs ∧ vs = b :: bs := by
  simp only [viewAll]
  cases f a with
  | none => simp
  | some b =>
    cases viewAll f as with
    | none => simp
    | some bs => simp [eq_comm]

theorem viewAll_length {α β : Type} {f : α → Option β} :
    ∀ {es : List α} {vs : List β}, viewAll f es = some vs → vs.length = es.length := by
  intro es
  induction es with
  | nil => intro vs h; simp [viewAll] at h; simp [← h]
  | cons a as ih =>
    intro vs h
    obtain ⟨b, bs, _, hbs, rfl⟩ := viewAll_cons_some.mp h
    simp [ih hbs]

theorem viewAll_get {α β : Type} {f : α → Option β} :
    ∀ {es : List α} {vs : List β}, viewAll f es = some vs →
      ∀ (i : Nat) (p : α), es[i]? = some p → ∃ v, vs[i]? = some v ∧ f p = some v := by
  intro es
  induction es with
  | nil => intro vs _ i p hp; simp at hp
  | cons a as ih =>
    intro vs h i p hp
    obtain ⟨b, bs, hb, hbs, rfl⟩ := viewAll_cons_some.mp h
    cases i with
    | zero =>
      simp at hp
      subst hp
      exact ⟨b, by simp, hb⟩
    | succ i =>
      simp at hp
      obtain ⟨v, hv, hf⟩ := ih hbs i p hp
      exact ⟨v, by simpa using hv, hf⟩

theorem viewAll_local {β : Type} {view : Heap → Ptr → Option β}
    {fp : Heap → Ptr → List Addr} (hl : FrameLocal view fp) {H H1 : Heap} :
    ∀ {es : List Ptr} {vs : List β}, viewAll (view H) es = some vs →
      (∀ a ∈ es.flatMap (fp H), H1[a]? = H[a]?) →
      viewAll (view H1) es = some vs ∧ es.flatMap (fp H1) = es.flatMap (fp H) := by
  intro es
  induction es with
  | nil => intro vs hv _; exact ⟨hv, rfl⟩
  | cons p ps ih =>
    intro vs hv hag
    obtain ⟨b, bs, hb, hbs, rfl⟩ := viewAll_cons_some.mp hv
    have h1 := hl H H1 p b hb (fun a ha => hag a (by
      rw [List.flatMap_cons]; exact List.mem_append_left _ ha))
    have h2 := ih hbs (fun a ha => hag a (by
      rw [List.flatMap_cons]; exact List.mem_append_right _ ha))
    refine ⟨viewAll_cons_some.mpr ⟨b, bs, h1.1, h2.1, rfl⟩, ?_⟩
    rw [List.flatMap_cons, List.flatMap_cons, h1.2, h2.2]

theorem viewAll_bounded {β : Type} {view : Heap → Ptr → Option β}
    {fp : Heap → Ptr → List Addr} (hb : Bounded view fp) {H : Heap} :
    ∀ {es : List Ptr} {vs : List β}, viewAll (view H) es = some vs →
      ∀ a ∈ es.flatMap (fp H), a < H.length := by
  intro es
  induction es with
  | nil => intro vs _ a ha; simp at ha
  | cons p ps ih =>
    intro vs hv a ha
    obtain ⟨b, bs, hpb, hbs, rfl⟩ := viewAll_cons_some.mp hv
    rw [List.flatMap_cons] at ha
    rcases List.mem_append.mp ha with h | h
    · exact hb H p b hpb a h
    · exact ih hbs a h

theorem viewAll_of_extends {β : Type} {view : Heap → Ptr → Option β}
    {fp : Heap → Ptr → List Addr} (hl : FrameLocal view fp) (hb : Bounded view fp)
    {H H1 : Heap} {es : List Ptr} {vs : List β} (hv : viewAll (view H) es = some vs)
    (he : H.Extends H1) :
    viewAll (view H1) es = some vs ∧ es.flatMap (fp H1) = es.flatMap (fp H) :=
  viewAll_local hl hv (fun a ha => he.get (viewAll_bounded hb hv a ha))

/-- The elements of a slice depend only on its backing array. -/
theorem elems_congr {H H1 : Heap} {s : Slice}
    (h : ∀ a, s.arr = some a → H1[a]? = H[a]?) : H1.elems s = H.elems s := by
  unfold Heap.elems
  cases hs : s.arr with
  | none => rfl
  | some a => simp only [h a hs]

theorem elems_length {H : Heap} {s : Slice} {es : List Ptr} (h : H.elems s = some es) :
    es.length = s.len := by
  unfold Heap.elems at h
  cases hs : s.arr with
  | none =>
    rw [hs] at h
    by_cases h0 : s.len = 0
    · simp [h0] at h; simp [← h, h0]
    · simp [h0] at h
  | some a =>
    rw [hs] at h
    cases ho : H[a]? with
    | none => simp [ho] at h
    | some o =>
      cases o <;> simp [ho] at h
      obtain ⟨hle, rfl⟩ := h
      simp [hle]

theorem viewSlice_local {β : Type} {view : Heap → Ptr → Option β}
    {fp : Heap → Ptr → List Addr} (hl : FrameLocal view fp) :
    FrameLocal (Heap.viewSlice view) (Heap.fpSlice fp) := by
  intro H H1 s vs hv hag
  have he : H1.elems s = H.elems s := by
    apply elems_congr
    intro a ha
    apply hag
    simp [Heap.fpSlice, ha]
  unfold Heap.viewSlice at hv ⊢
  unfold Heap.fpSlice at hag ⊢
  rw [he]
  cases hes : H.elems s with
  | none => rw [hes] at hv; simp at hv
  | some es =>
    rw [hes] at hv hag
    simp only at hv ⊢
    cases hs : s.arr with
    | none => exact ⟨(viewAll_local hl hv (by
        intro a ha
        exfalso
        have : es = [] := by
          simp [Heap.elems, hs] at hes
          exact hes.2
        simp [this] at ha)).1, rfl⟩
    | some a =>
      rw [hs] at hag
      simp only at hag ⊢
      have h := viewAll_local hl hv (fun b hb => hag b (List.mem_cons_of_mem _ hb))
      exact ⟨h.1, by rw [h.2]⟩

theorem viewSlice_bounded {β : Type} {view : Heap → Ptr → Option β}
    {fp : Heap → Ptr → List Addr} (hb : Bounded view fp) :
    Bounded (Heap.viewSlice view) (Heap.fpSlice fp) := by
  intro H s vs hv a ha
  unfold Heap.viewSlice at hv
  unfold Heap.fpSlice at ha
  cases hes : H.elems s with
  | none => rw [hes] at hv; simp at hv
  | some es =>
    rw [hes] at hv ha
    simp only at hv
    cases hs : s.arr with
    | none => rw [hs] at ha; simp at ha
    | some c =>
      rw [hs] at ha
      simp only at ha
      rcases List.mem_cons.mp ha with h | h
      · subst h
        unfold Heap.elems at hes
        rw [hs] at hes
        cases ho : H[a]? with
        | none => simp [ho] at hes
        | some o => exact lt_length_of_get ho
      · exact viewAll_bounded hb hv a h

/-! ## Deep copies -/

theorem makeSlice_apply (ps : List Ptr) (H : Heap) :
    makeSlice ps H = .ok (⟨some H.length, ps.length⟩, H ++ [.arr ps]) := rfl

theorem elems_makeSlice (ps : List Ptr) (H : Heap) :
    (H ++ [Obj.arr ps]).elems ⟨some H.length, ps.length⟩ = some ps := by
  simp [Heap.elems]

theorem cloneAll_spec {β : Type} {view : Heap → Ptr → Option β}
    {fp : Heap → Ptr → List Addr} {clone : Ptr → Exec Ptr} (hl : FrameLocal view fp)
    (hb : Bounded view fp) (hc : Clones view fp clone) :
    ∀ (es : List Ptr) (H : Heap) (vs : List β), viewAll (view H) es = some vs →
      ∃ qs H1, cloneAll clone es H = .ok (qs, H1) ∧ H.Extends H1 ∧
        viewAll (view H1) qs = some vs ∧ ∀ a ∈ qs.flatMap (fp H1), H.length ≤ a := by
  intro es
  induction es with
  | nil =>
    intro H vs hv
    exact ⟨[], H, rfl, Heap.Extends.refl H, hv, by simp⟩
  | cons p ps ih =>
    intro H vs hv
    obtain ⟨b, bs, hpb, hbs, rfl⟩ := viewAll_cons_some.mp hv
    obtain ⟨q, H1, hq, he1, hvq, hfq⟩ := hc H p b hpb
    obtain ⟨qs, H2, hqs, he2, hvqs, hfqs⟩ :=
      ih H1 bs (viewAll_of_extends hl hb hbs he1).1
    have hq2 := view_of_extends hl hb hvq he2
    refine ⟨q :: qs, H2, ?_, he1.trans he2,
      viewAll_cons_some.mpr ⟨b, bs, hq2.1, hvqs, rfl⟩, ?_⟩
    · show (clone p >>= fun q => cloneAll clone ps >>= fun qs => pure (q :: qs)) H = _
      rw [Exec.bind_ok hq, Exec.bind_ok hqs]
      rfl
    · intro a ha
      rw [List.flatMap_cons] at ha
      rcases List.mem_append.mp ha with h | h
      · rw [hq2.2] at h
        exact hfq a h
      · exact le_trans he1.length_le (hfqs a h)

theorem cloneSlice_spec {β : Type} {view : Heap → Ptr → Option β}
    {fp : Heap → Ptr → List Addr} {clone : Ptr → Exec Ptr} (hl : FrameLocal view fp)
    (hb : Bounded view fp) (hc : Clones view fp clone) (H : Heap) (s : Slice)
    (vs : List β) (hv : H.viewSlice view s = some vs) :
    ∃ s1 H1, cloneSlice clone s H = .ok (s1, H1) ∧ H.Extends H1 ∧
      H1.viewSlice view s1 = some vs ∧ ∀ a ∈ H1.fpSlice fp s1, H.length ≤ a := by
  unfold Heap.viewSlice at hv
  cases hes : H.elems s with
  | none => rw [hes] at hv; simp at hv
  | some es =>
    rw [hes] at hv
    simp only at hv
    obtain ⟨qs, H1, hqs, he1, hvqs, hfqs⟩ := cloneAll_spec hl hb hc es H vs hv
    have he2 : H1.Extends (H1 ++ [Obj.arr qs]) := Heap.Extends.snoc H1 _
    have hv2 := viewAll_of_extends hl hb hvqs he2
    refine ⟨⟨some H1.length, qs.length⟩, H1 ++ [Obj.arr qs], ?_, he1.trans he2, ?_, ?_⟩
    · show (readSlice s >>= fun es => cloneAll clone es >>= fun qs => makeSlice qs) H = _
      rw [Exec.bind_ok (readSlice_ok hes), Exec.bind_ok hqs, makeSlice_apply]
    · unfold Heap.viewSlice
      rw [elems_makeSlice]
      exact hv2.1
    · intro a ha
      unfold Heap.fpSlice at ha
      rw [elems_makeSlice] at ha
      simp only at ha
      rcases List.mem_cons.mp ha with h | h
      · rw [h]
        exact he1.length_le
      · rw [hv2.2] at h
        exact hfqs a h

/-! ## The three levels -/

theorem viewMetric_some (H : Heap) (a : Addr) :
    H.viewMetric (some a) = match H[a]? with
      | some (.metric r) => some (some r)
      | _ => none := rfl

theorem viewILM_some (H : Heap) (a : Addr) :
    H.viewILM (some a) = match H[a]? with
      | some (.ilm r) =>
        match H.viewSlice Heap.viewMetric r.metrics with
        | some ms => some (some ⟨r.library, ms⟩)
        | none => none
      | _ => none := rfl

theorem viewRM_some (H : Heap) (a : Addr) :
    H.viewRM (some a) = match H[a]? with
      | some (.rm r) =>
        match H.viewSlice Heap.viewILM r.ilms with
        | some ls => some (some ⟨r.resource, ls⟩)
        | none => none
      | _ => none := rfl

theorem fpILM_some (H : Heap) (a : Addr) :
    H.fpILM (some a) = a :: (match H[a]? with
      | some (.ilm r) => H.fpSlice Heap.fpMetric r.metrics
      | _ => []) := rfl

theorem fpRM_some (H : Heap) (a : Addr) :
    H.fpRM (some a) = a :: (match H[a]? with
      | some (.rm r) => H.fpSlice Heap.fpILM r.ilms
      | _ => []) := rfl

/-- A metric pointer with a value is `nil` or points to a metric record. -/
theorem viewMetric_inv {H : Heap} {a : Addr} {v : Option MetricRec}
    (hv : H.viewMetric (some a) = some v) : ∃ r, H[a]? = some (.metric r) ∧ v = some r := by
  rw [viewMetric_some] at hv
  cases ho : H[a]? with
  | none => simp [ho] at hv
  | some o =>
    cases o <;> simp [ho] at hv
    exact ⟨_, rfl, hv.symm⟩

/-- A library pointer with a value is `nil` or points to a library record whose metrics
slice has a value. -/
theorem viewILM_inv {H : Heap} {a : Addr} {v : Option ILMView}
    (hv : H.viewILM (some a) = some v) :
    ∃ r ms, H[a]? = some (.ilm r) ∧ H.viewSlice Heap.viewMetric r.metrics = some ms ∧
      v = some ⟨r.library, ms⟩ := by
  rw [viewILM_some] at hv
  cases ho : H[a]? with
  | none => simp [ho] at hv
  | some o =>
    cases o <;> simp [ho] at hv
    rename_i r
    cases hs : H.viewSlice Heap.viewMetric r.metrics with
    | none => simp [hs] at hv
    | some ms =>
      simp [hs] at hv
      exact ⟨r, ms, rfl, hs, hv.symm⟩

/-- A resource-metrics pointer with a value is `nil` or points to a record whose library
slice has a value. -/
theorem viewRM_inv {H : Heap} {a : Addr} {v : Option RMView}
    (hv : H.viewRM (some a) = some v) :
    ∃ r ls, H[a]? = some (.rm r) ∧ H.viewSlice Heap.viewILM r.ilms = some ls ∧
      v = some ⟨r.resource, ls⟩ := by
  rw [viewRM_some] at hv
  cases ho : H[a]? with
  | none => simp [ho] at hv
  | some o =>
    cases o <;> simp [ho] at hv
    rename_i r
    cases hs : H.viewSlice Heap.viewILM r.ilms with
    | none => simp [hs] at hv
    | some ls =>
      simp [hs] at hv
      exact ⟨r, ls, rfl, hs, hv.symm⟩

theorem viewMetric_local : FrameLocal Heap.viewMetric Heap.fpMetric := by
  intro H H1 p v hv hag
  cases p with
  | none => exact ⟨hv, rfl⟩
  | some a =>
    have ha : H1[a]? = H[a]? := hag a (by simp [Heap.fpMetric])
    refine ⟨?_, rfl⟩
    rw [viewMetric_some] at hv ⊢
    rw [ha]
    exact hv

theorem viewMetric_bounded : Bounded Heap.viewMetric Heap.fpMetric := by
  intro H p v hv a ha
  cases p with
  | none => simp [Heap.fpMetric] at ha
  | some c =>
    simp [Heap.fpMetric] at ha
    subst ha
    obtain ⟨r, ho, _⟩ := viewMetric_inv hv
    exact lt_length_of_get ho

theorem cloneMetric_clones : Clones Heap.viewMetric Heap.fpMetric cloneMetric := by
  intro H p v hv
  cases p with
  | none => exact ⟨none, H, rfl, Heap.Extends.refl H, hv, by simp [Heap.fpMetric]⟩
  | some a =>
    obtain ⟨r, ho, rfl⟩ := viewMetric_inv hv
    refine ⟨some H.length, H ++ [Obj.metric r], ?_, Heap.Extends.snoc H _, ?_, ?_⟩
    · show (loadMetric (some a) >>= fun r => alloc (.metric r) >>= fun b =>
        pure (some b)) H = _
      rw [Exec.bind_ok (loadMetric_ok ho)]
      rfl
    · simp [viewMetric_some]
    · intro b hb
      simp [Heap.fpMetric] at hb
      exact le_of_eq hb.symm

theorem viewILM_local : FrameLocal Heap.viewILM Heap.fpILM := by
  intro H H1 p v hv hag
  cases p with
  | none => exact ⟨hv, rfl⟩
  | some a =>
    obtain ⟨r, ms, ho, hs, rfl⟩ := viewILM_inv hv
    rw [fpILM_some, ho] at hag
    have ha : H1[a]? = some (.ilm r) := by rw [hag a (by simp), ho]
    have h := viewSlice_local viewMetric_local H H1 r.metrics ms hs
      (fun b hb => hag b (List.mem_cons_of_mem _ hb))
    rw [viewILM_some, fpILM_some, fpILM_some, ha, ho]
    simp only [h.1, h.2, and_self]

theorem viewILM_bounded : Bounded Heap.viewILM Heap.fpILM := by
  intro H p v hv a ha
  cases p with
  | none => simp [Heap.fpILM] at ha
  | some c =>
    obtain ⟨r, ms, ho, hs, rfl⟩ := viewILM_inv hv
    rw [fpILM_some, ho] at ha
    rcases List.mem_cons.mp ha with h | h
    · rw [h]
      exact lt_length_of_get ho
    · exact viewSlice_bounded viewMetric_bounded H r.metrics ms hs a h

theorem cloneILM_clones : Clones Heap.viewILM Heap.fpILM cloneILM := by
  intro H p v hv
  cases p with
  | none => exact ⟨none, H, rfl, Heap.Extends.refl H, hv, by simp [Heap.fpILM]⟩
  | some a =>
    obtain ⟨r, ms, ho, hs, rfl⟩ := viewILM_inv hv
    obtain ⟨s1, H1, hcl, he1, hv1, hf1⟩ :=
      cloneSlice_spec viewMetric_local viewMetric_bounded cloneMetric_clones H r.metrics ms hs
    have he2 : H1.Extends (H1 ++ [Obj.ilm ⟨r.library, s1⟩]) := Heap.Extends.snoc H1 _
    have h2 := view_of_extends (viewSlice_local viewMetric_local)
      (viewSlice_bounded viewMetric_bounded) hv1 he2
    have hnew : (H1 ++ [Obj.ilm ⟨r.library, s1⟩])[H1.length]? =
        some (Obj.ilm ⟨r.library, s1⟩) := List.getElem?_concat_length _ _
    refine ⟨some H1.length, H1 ++ [Obj.ilm ⟨r.library, s1⟩], ?_, he1.trans he2, ?_, ?_⟩
    · show (loadILM (some a) >>= fun r => cloneSlice cloneMetric r.metrics >>= fun ms =>
        alloc (.ilm ⟨r.library, ms⟩) >>= fun b => pure (some b)) H = _
      rw [Exec.bind_ok (loadILM_ok ho), Exec.bind_ok hcl]
      rfl
    · rw [viewILM_some, hnew]
      simp only [h2.1]
    · intro b hb
      rw [fpILM_some, hnew] at hb
      rcases List.mem_cons.mp hb with h | h
      · rw [h]
        exact he1.length_le
      · simp only at h
        rw [h2.2] at h
        exact hf1 b h

theorem viewRM_local : FrameLocal Heap.viewRM Heap.fpRM := by
  intro H H1 p v hv hag
  cases p with
  | none => exact ⟨hv, rfl⟩
  | some a =>
    obtain ⟨r, ls, ho, hs, rfl⟩ := viewRM_inv hv
    rw [fpRM_some, ho] at hag
    have ha : H1[a]? = some (.rm r) := by rw [hag a (by simp), ho]
    have h := viewSlice_local viewILM_local H H1 r.ilms ls hs
      (fun b hb => hag b (List.mem_cons_of_mem _ hb))
    rw [viewRM_some, fpRM_some, fpRM_some, ha, ho]
    simp only [h.1, h.2, and_self]

theorem viewRM_bounded : Bounded Heap.viewRM Heap.fpRM := by
  intro H p v hv a ha
  cases p with
  | none => simp [Heap.fpRM] at ha
  | some c =>
    obtain ⟨r, ls, ho, hs, rfl⟩ := viewRM_inv hv
    rw [fpRM_some, ho] at ha
    rcases List.mem_cons.mp ha with h | h
    · rw [h]
      exact lt_length_of_get ho
    · exact viewSlice_bounded viewILM_bounded H r.ilms ls hs a h

theorem protoClone_clones : Clones Heap.viewRM Heap.fpRM protoClone := by
  intro H p v hv
  cases p with
  | none => exact ⟨none, H, rfl, Heap.Extends.refl H, hv, by simp [Heap.fpRM]⟩
  | some a =>
    obtain ⟨r, ls, ho, hs, rfl⟩ := viewRM_inv hv
    obtain ⟨s1, H1, hcl, he1, hv1, hf1⟩ :=
      cloneSlice_spec viewILM_local viewILM_bounded cloneILM_clones H r.ilms ls hs
    have he2 : H1.Extends (H1 ++ [Obj.rm ⟨r.resource, s1⟩]) := Heap.Extends.snoc H1 _
    have h2 := view_of_extends (viewSlice_local viewILM_local)
      (viewSlice_bounded viewILM_bounded) hv1 he2
    have hnew : (H1 ++ [Obj.rm ⟨r.resource, s1⟩])[H1.length]? =
        some (Obj.rm ⟨r.resource, s1⟩) := List.getElem?_concat_length _ _
    refine ⟨some H1.length, H1 ++ [Obj.rm ⟨r.resource, s1⟩], ?_, he1.trans he2, ?_, ?_⟩
    · show (loadRM (some a) >>= fun r => cloneSlice cloneILM r.ilms >>= fun ils =>
        alloc (.rm ⟨r.resource, ils⟩) >>= fun b => pure (some b)) H = _
      rw [Exec.bind_ok (loadRM_ok ho), Exec.bind_ok hcl]
      rfl
    · rw [viewRM_some, hnew]
      simp only [h2.1]
    · intro b hb
      rw [fpRM_some, hnew] at hb
      rcases List.mem_cons.mp hb with h | h
      · rw [h]
        exact he1.length_le
      · simp only at h
        rw [h2.2] at h
        exact hf1 b h

/-! ## The handle -/

/-- A handle with a value points to a cell holding a slice with that value. -/
theorem MetricData.view_inv {md : MetricData} {H : Heap} {t : GraphView}
    (hv : md.view H = some t) :
    ∃ c s, md.orig = some c ∧ H[c]? = some (.cell s) ∧
      H.viewSlice Heap.viewRM s = some t := by
  unfold MetricData.view at hv
  cases hc : md.orig with
  | none => simp [hc] at hv
  | some c =>
    rw [hc] at hv
    simp only at hv
    cases ho : H[c]? with
    | none => simp [ho] at hv
    | some o =>
      cases o <;> simp [ho] at hv
      exact ⟨c, _, rfl, ho, hv⟩

theorem MetricData.view_eq {md : MetricData} {H : Heap} {c : Addr} {s : Slice}
    (hc : md.orig = some c) (ho : H[c]? = some (.cell s)) :
    md.view H = H.viewSlice Heap.viewRM s := by
  simp [MetricData.view, hc, ho]

theorem MetricData.footprint_eq {md : MetricData} {H : Heap} {c : Addr} {s : Slice}
    (hc : md.orig = some c) (ho : H[c]? = some (.cell s)) :
    md.footprint H = c :: H.fpSlice Heap.fpRM s := by
  simp [MetricData.footprint, hc, ho]

/-- The value and the footprint of a handle depend only on its footprint. -/
theorem MetricData.view_local {md : MetricData} {H H1 : Heap} {t : GraphView}
    (hv : md.view H = some t) (hag : ∀ a ∈ md.footprint H, H1[a]? = H[a]?) :
    md.view H1 = some t ∧ md.footprint H1 = md.footprint H := by
  obtain ⟨c, s, hc, ho, hs⟩ := MetricData.view_inv hv
  rw [MetricData.footprint_eq hc ho] at hag ⊢
  have ho1 : H1[c]? = some (.cell s) := by rw [hag c (by simp), ho]
  have h := viewSlice_local viewRM_local H H1 s t hs
    (fun b hb => hag b (List.mem_cons_of_mem _ hb))
  rw [MetricData.view_eq hc ho1, MetricData.footprint_eq hc ho1, h.1, h.2]
  exact ⟨rfl, rfl⟩

/-- A handle with a value reaches allocated addresses only. -/
theorem MetricData.footprint_lt {md : MetricData} {H : Heap} {t : GraphView}
    (hv : md.view H = some t) : ∀ a ∈ md.footprint H, a < H.length := by
  obtain ⟨c, s, hc, ho, hs⟩ := MetricData.view_inv hv
  rw [MetricData.footprint_eq hc ho]
  intro a ha
  rcases List.mem_cons.mp ha with h | h
  · rw [h]
    exact lt_length_of_get ho
  · exact viewSlice_bounded viewRM_bounded H s t hs a h

/-- The handle itself is part of its footprint. -/
theorem MetricData.orig_mem_footprint {md : MetricData} {H : Heap} {c : Addr}
    (hc : md.orig = some c) : c ∈ md.footprint H := by
  simp [MetricData.footprint, hc]

theorem MetricDataToOtlp_ok {md : MetricData} {H : Heap} {c : Addr} {s : Slice}
    (hc : md.orig = some c) (ho : H[c]? = some (.cell s)) :
    MetricDataToOtlp md H = .ok (s, H) := by
  unfold MetricDataToOtlp
  rw [hc]
  exact loadCell_ok ho

/-- The loop of `Clone` clones the elements of the range in order and appends them to the
slice it was started with. -/
theorem Clone_loop_eq : ∀ (es acc : List Ptr) (H : Heap),
    MetricData.Clone.loop es acc H =
      (cloneAll protoClone es >>= fun qs => pure (acc ++ qs)) H := by
  intro es
  induction es with
  | nil => intro acc H; simp [MetricData.Clone.loop, cloneAll, Exec.bind_apply, Exec.pure_apply]
  | cons p ps ih =>
    intro acc H
    show (protoClone p >>= fun c => MetricData.Clone.loop ps (acc ++ [c])) H =
      ((protoClone p >>= fun q => cloneAll protoClone ps >>= fun qs => pure (q :: qs)) >>=
        fun qs => pure (acc ++ qs)) H
    rw [Exec.bind_apply, Exec.bind_apply, Exec.bind_apply]
    cases hp : protoClone p H with
    | error e => rfl
    | ok r =>
      obtain ⟨c, H1⟩ := r
      simp only
      rw [ih, Exec.bind_apply, Exec.bind_apply]
      cases hq : cloneAll protoClone ps H1 with
      | error e => rfl
      | ok r2 =>
        obtain ⟨qs, H2⟩ := r2
        simp [Exec.pure_apply]

/-- What `Clone` returns on a handle with a value: a new handle, in an extension of the
heap, with the same value, reaching new addresses only. -/
theorem Clone_core {md : MetricData} {H : Heap} {t : GraphView} (hv : md.view H = some t) :
    ∃ c H1, md.Clone H = .ok (c, H1) ∧ H.Extends H1 ∧ c.view H1 = some t ∧
      (∀ a ∈ c.footprint H1, H.length ≤ a) ∧
      ∃ s1, MetricDataToOtlp c H1 = .ok (s1, H1) ∧ s1.len = t.length := by
  obtain ⟨c0, s, hc, ho, hs⟩ := MetricData.view_inv hv
  have hs0 := hs
  unfold Heap.viewSlice at hs
  cases hes : H.elems s with
  | none => rw [hes] at hs; simp at hs
  | some es =>
    rw [hes] at hs
    simp only at hs
    obtain ⟨qs, H1, hqs, he1, hvqs, hfqs⟩ :=
      cloneAll_spec viewRM_local viewRM_bounded protoClone_clones es H t hs
    have he2 : H1.Extends (H1 ++ [Obj.arr qs]) := Heap.Extends.snoc H1 _
    have he3 : (H1 ++ [Obj.arr qs]).Extends
        (H1 ++ [Obj.arr qs] ++ [Obj.cell ⟨some H1.length, qs.length⟩]) :=
      Heap.Extends.snoc _ _
    have hv3 := viewAll_of_extends viewRM_local viewRM_bounded hvqs (he2.trans he3)
    have harr : (H1 ++ [Obj.arr qs] ++ [Obj.cell ⟨some H1.length, qs.length⟩])[H1.length]? =
        some (Obj.arr qs) := by
      rw [he3.get (by simp)]
      exact List.getElem?_concat_length _ _
    have hcell : (H1 ++ [Obj.arr qs] ++
        [Obj.cell ⟨some H1.length, qs.length⟩])[(H1 ++ [Obj.arr qs]).length]? =
        some (Obj.cell ⟨some H1.length, qs.length⟩) := List.getElem?_concat_length _ _
    have helems : (H1 ++ [Obj.arr qs] ++ [Obj.cell ⟨some H1.length, qs.length⟩]).elems
        ⟨some H1.length, qs.length⟩ = some qs := by
      unfold Heap.elems
      simp only [harr]
      simp
    refine ⟨⟨some (H1 ++ [Obj.arr qs]).length⟩,
      H1 ++ [Obj.arr qs] ++ [Obj.cell ⟨some H1.length, qs.length⟩], ?_,
      he1.trans (he2.trans he3), ?_, ?_, ?_⟩
    · show (MetricDataToOtlp md >>= fun otlp => readSlice otlp >>= fun range =>
        MetricData.Clone.loop range [] >>= fun cl => makeSlice cl >>= fun s =>
        MetricDataFromOtlp s) H = _
      rw [Exec.bind_ok (MetricDataToOtlp_ok hc ho), Exec.bind_ok (readSlice_ok hes)]
      have hloop : MetricData.Clone.loop es [] H = .ok (qs, H1) := by
        rw [Clone_loop_eq, Exec.bind_ok hqs]
        simp [Exec.pure_apply]
      rw [Exec.bind_ok hloop]
      rfl
    · rw [MetricData.view_eq rfl hcell]
      unfold Heap.viewSlice
      rw [helems]
      exact hv3.1
    · rw [MetricData.footprint_eq rfl hcell]
      intro a ha
      rcases List.mem_cons.mp ha with h | h
      · rw [h]
        exact le_trans he1.length_le he2.length_le
      · unfold Heap.fpSlice at h
        rw [helems] at h
        simp only at h
        rcases List.mem_cons.mp h with h1 | h1
        · rw [h1]
          exact he1.length_le
        · rw [hv3.2] at h1
          exact hfqs a h1
    · refine ⟨⟨some H1.length, qs.length⟩, MetricDataToOtlp_ok rfl hcell, ?_⟩
      exact (viewAll_length hvqs).symm

/-- A handle with a value: the slice it holds, its elements, and their values. -/
theorem MetricData.view_elems {md : MetricData} {H : Heap} {t : GraphView}
    (hv : md.view H = some t) :
    ∃ s es, MetricDataToOtlp md H = .ok (s, H) ∧ H.elems s = some es ∧
      viewAll H.viewRM es = some t ∧ s.len = t.length := by
  obtain ⟨c, s, hc, ho, hs⟩ := MetricData.view_inv hv
  unfold Heap.viewSlice at hs
  cases hes : H.elems s with
  | none => rw [hes] at hs; simp at hs
  | some es =>
    rw [hes] at hs
    simp only at hs
    exact ⟨s, es, MetricDataToOtlp_ok hc ho, hes, hs,
      by rw [← elems_length hes, viewAll_length hs]⟩

/-- A handle with a value keeps it, and its footprint, in an extension of the heap. -/
theorem MetricData.view_extends_handle {md : MetricData} {H H1 : Heap} {t : GraphView}
    (hv : md.view H = some t) (he : H.Extends H1) :
    md.view H1 = some t ∧ md.footprint H1 = md.footprint H :=
  MetricData.view_local hv (fun a ha => he.get (MetricData.footprint_lt hv a ha))

/-- A write outside the footprint of a handle is not seen through the handle. -/
theorem MetricData.view_set {md : MetricData} {H : Heap} {t : GraphView}
    (hv : md.view H = some t) {a : Addr} (ha : a ∉ md.footprint H) (o : Obj) :
    md.view (H.set a o) = some t ∧ md.footprint (H.set a o) = md.footprint H ∧
      ∀ b ∈ md.footprint H, (H.set a o)[b]? = H[b]? := by
  have hag : ∀ b ∈ md.footprint H, (H.set a o)[b]? = H[b]? := by
    intro b hb
    apply List.getElem?_set_ne
    intro hab
    exact ha (hab ▸ hb)
  have h := MetricData.view_local hv hag
  exact ⟨h.1, h.2, hag⟩

theorem storeCell_ok {H : Heap} {a : Addr} {s0 : Slice} (s : Slice)
    (ho : H[a]? = some (.cell s0)) : storeCell (some a) s H = .ok ((), H.set a (.cell s)) := by
  unfold storeCell
  rw [Exec.bind_ok (loadCell_ok ho)]
  simp [store, lt_length_of_get ho]

theorem SetResourceMetrics_ok {md : MetricData} {v : ResourceMetricsSlice} {H : Heap}
    {a b : Addr} {s0 s : Slice} (hmd : md.orig = some a) (ha : H[a]? = some (.cell s0))
    (hv : v.orig = some b) (hb : H[b]? = some (.cell s)) :
    md.SetResourceMetrics v H = .ok ((), H.set a (.cell s)) := by
  unfold MetricData.SetResourceMetrics
  rw [hv, Exec.bind_ok (loadCell_ok hb), hmd]
  exact storeCell_ok s ha

/-- A call of `SetResourceMetrics` that returns has overwritten the cell of the handle with
the slice held by the cell of the view, and nothing else. -/
theorem SetResourceMetrics_inv {md : MetricData} {v : ResourceMetricsSlice} {H H2 : Heap}
    (h : md.SetResourceMetrics v H = .ok ((), H2)) :
    ∃ a b s0 s, md.orig = some a ∧ H[a]? = some (.cell s0) ∧ v.orig = some b ∧
      H[b]? = some (.cell s) ∧ H2 = H.set a (.cell s) := by
  unfold MetricData.SetResourceMetrics at h
  rw [Exec.bind_apply] at h
  cases h1 : loadCell v.orig H with
  | error e => rw [h1] at h; simp at h
  | ok r =>
    obtain ⟨s, H1⟩ := r
    rw [h1] at h
    simp only at h
    obtain ⟨rfl, b, hb, hbs⟩ := loadCell_inv h1
    unfold storeCell at h
    rw [Exec.bind_apply] at h
    cases h2 : loadCell md.orig H1 with
    | error e => rw [h2] at h; simp at h
    | ok r2 =>
      obtain ⟨s0, H3⟩ := r2
      obtain ⟨rfl, a, ha, has⟩ := loadCell_inv h2
      rw [h2] at h
      simp only at h
      rw [ha] at h
      simp [store, lt_length_of_get has] at h
      exact ⟨a, b, s0, s, ha, has, hb, hbs, h.symm⟩

/-! ## Clone -/

/-- Claim C4. For every handle `md` whose graph has a value `t` (a well-typed graph, `nil`
records allowed), `md.Clone()` returns a handle `c` whose graph has the same value `t`:
the root slices of `c` and `md` have the same length and, at every index, hold records
equal in value, down to the metrics and their points. `Clone` only allocates: the heap
it leaves extends the heap it found, and `md` still has the value `t`. -/
theorem Clone_structurally_equal (H : Heap) (md : MetricData) (t : GraphView)
    (hv : md.view H = some t) :
    ∃ c H1, md.Clone H = .ok (c, H1) ∧ H.Extends H1 ∧
      c.view H1 = some t ∧ md.view H1 = some t ∧
      ∃ s s1 es es1, MetricDataToOtlp md H = .ok (s, H) ∧
        MetricDataToOtlp md H1 = .ok (s, H1) ∧ MetricDataToOtlp c H1 = .ok (s1, H1) ∧
        s1.len = s.len ∧ H1.elems s = some es ∧ H1.elems s1 = some es1 ∧
        ∀ (i : Nat) (p q : Ptr), es[i]? = some p → es1[i]? = some q →
          ∃ r, H1.viewRM p = some r ∧ H1.viewRM q = some r ∧ t[i]? = some r := by
  obtain ⟨c, H1, hcl, he, hvc, _, _⟩ := Clone_core hv
  have hv1 := (MetricData.view_extends_handle hv he).1
  obtain ⟨s0, _, hto0, _, _, _⟩ := MetricData.view_elems hv
  obtain ⟨s, es, hto, hes, hall, hlen⟩ := MetricData.view_elems hv1
  obtain ⟨s1, es1, hto1, hes1, hall1, hlen1⟩ := MetricData.view_elems hvc
  have hs0 : s0 = s := by
    obtain ⟨a, sa, ha, hoa, _⟩ := MetricData.view_inv hv
    have h1 := MetricDataToOtlp_ok ha hoa
    have h2 := MetricDataToOtlp_ok ha ((he.get (lt_length_of_get hoa)).trans hoa)
    rw [h1] at hto0
    rw [h2] at hto
    simp at hto0 hto
    rw [← hto0, ← hto]
  subst hs0
  refine ⟨c, H1, hcl, he, hvc, hv1, s0, s1, es, es1, hto0, hto, hto1,
    by rw [hlen, hlen1], hes, hes1, ?_⟩
  intro i p q hp hq
  obtain ⟨r, hr, hpr⟩ := viewAll_get hall i p hp
  obtain ⟨r1, hr1, hqr⟩ := viewAll_get hall1 i q hq
  rw [hr] at hr1
  simp at hr1
  subst hr1
  exact ⟨r, hpr, hqr, hr⟩

/-- C4 on the sample heap. -/
theorem Clone_structurally_equal_witness :
    sampleMd.view sampleHeap = some sampleView ∧
    ∃ c H1, sampleMd.Clone sampleHeap = .ok (c, H1) ∧ sampleHeap.Extends H1 ∧
      c.view H1 = some sampleView ∧ sampleMd.view H1 = some sampleView ∧
      ∃ s s1 es es1, MetricDataToOtlp sampleMd sampleHeap = .ok (s, sampleHeap) ∧
        MetricDataToOtlp sampleMd H1 = .ok (s, H1) ∧ MetricDataToOtlp c H1 = .ok (s1, H1) ∧
        s1.len = s.len ∧ H1.elems s = some es ∧ H1.elems s1 = some es1 ∧
        ∀ (i : Nat) (p q : Ptr), es[i]? = some p → es1[i]? = some q →
          ∃ r, H1.viewRM p = some r ∧ H1.viewRM q = some r ∧ sampleView[i]? = some r :=
  ⟨by decide, Clone_structurally_equal sampleHeap sampleMd sampleView (by decide)⟩

/-- Claim C3. For every handle `md` whose graph has a value `t`, the clone `c` returned by
`md.Clone()` is independent of `md`: the two footprints (cell, backing arrays, records,
down to the metrics) share no address. Hence a write of any object at any address
reached from `c`, or `c.SetResourceMetrics(v)` for any view `v`, leaves the slice
returned by `MetricDataToOtlp(md)`, the value of `md` and every object reached from `md`
as they were; and a write at any address reached from `md`, or
`md.SetResourceMetrics(v)`, leaves the value of `c` and every object reached from `c` as
they were. -/
theorem Clone_independent (H : Heap) (md : MetricData) (t : GraphView)
    (hv : md.view H = some t) :
    ∃ c H1 s, md.Clone H = .ok (c, H1) ∧ MetricDataToOtlp md H1 = .ok (s, H1) ∧
      (∀ a ∈ c.footprint H1, a ∉ md.footprint H1) ∧
      (∀ a ∈ c.footprint H1, ∀ o : Obj,
        MetricDataToOtlp md (H1.set a o) = .ok (s, H1.set a o) ∧
        md.view (H1.set a o) = some t ∧
        ∀ b ∈ md.footprint H1, (H1.set a o)[b]? = H1[b]?) ∧
      (∀ (v : ResourceMetricsSlice) (H2 : Heap), c.SetResourceMetrics v H1 = .ok ((), H2) →
        MetricDataToOtlp md H2 = .ok (s, H2) ∧ md.view H2 = some t ∧
        ∀ b ∈ md.footprint H1, H2[b]? = H1[b]?) ∧
      (∀ a ∈ md.footprint H1, ∀ o : Obj,
        c.view (H1.set a o) = some t ∧
        ∀ b ∈ c.footprint H1, (H1.set a o)[b]? = H1[b]?) ∧
      (∀ (v : ResourceMetricsSlice) (H2 : Heap), md.SetResourceMetrics v H1 = .ok ((), H2) →
        c.view H2 = some t ∧ ∀ b ∈ c.footprint H1, H2[b]? = H1[b]?) := by
  obtain ⟨c, H1, hcl, he, hvc, hfc, _⟩ := Clone_core hv
  obtain ⟨hv1, hf1⟩ := MetricData.view_extends_handle hv he
  obtain ⟨m0, s, hm0, hom, _⟩ := MetricData.view_inv hv1
  have hdisj : ∀ a ∈ c.footprint H1, a ∉ md.footprint H1 := by
    intro a ha hb
    rw [hf1] at hb
    exact absurd (MetricData.footprint_lt hv a hb) (not_lt.mpr (hfc a ha))
  have hdisj2 : ∀ a ∈ md.footprint H1, a ∉ c.footprint H1 :=
    fun a ha hb => hdisj a hb ha
  have hto : ∀ H2 : Heap, (∀ b ∈ md.footprint H1, H2[b]? = H1[b]?) →
      MetricDataToOtlp md H2 = .ok (s, H2) := by
    intro H2 hag
    apply MetricDataToOtlp_ok hm0
    rw [hag m0 (MetricData.orig_mem_footprint hm0), hom]
  refine ⟨c, H1, s, hcl, MetricDataToOtlp_ok hm0 hom, hdisj, ?_, ?_, ?_, ?_⟩
  · intro a ha o
    have h := MetricData.view_set hv1 (hdisj a ha) o
    exact ⟨hto _ h.2.2, h.1, h.2.2⟩
  · intro v H2 hset
    obtain ⟨a, b, s0, sv, hca, _, _, _, rfl⟩ := SetResourceMetrics_inv hset
    have h := MetricData.view_set hv1
      (hdisj a (MetricData.orig_mem_footprint hca)) (Obj.cell sv)
    exact ⟨hto _ h.2.2, h.1, h.2.2⟩
  · intro a ha o
    have h := MetricData.view_set hvc (hdisj2 a ha) o
    exact ⟨h.1, h.2.2⟩
  · intro v H2 hset
    obtain ⟨a, b, s0, sv, hma, _, _, _, rfl⟩ := SetResourceMetrics_inv hset
    have h := MetricData.view_set hvc
      (hdisj2 a (MetricData.orig_mem_footprint hma)) (Obj.cell sv)
    exact ⟨h.1, h.2.2⟩

/-- C3 on the sample heap. -/
theorem Clone_independent_witness :
    sampleMd.view sampleHeap = some sampleView ∧
    ∃ c H1 s, sampleMd.Clone sampleHeap = .ok (c, H1) ∧
      MetricDataToOtlp sampleMd H1 = .ok (s, H1) ∧
      (∀ a ∈ c.footprint H1, a ∉ sampleMd.footprint H1) ∧
      (∀ a ∈ c.footprint H1, ∀ o : Obj,
        MetricDataToOtlp sampleMd (H1.set a o) = .ok (s, H1.set a o) ∧
        sampleMd.view (H1.set a o) = some sampleView ∧
        ∀ b ∈ sampleMd.footprint H1, (H1.set a o)[b]? = H1[b]?) ∧
      (∀ (v : ResourceMetricsSlice) (H2 : Heap),
        c.SetResourceMetrics v H1 = .ok ((), H2) →
        MetricDataToOtlp sampleMd H2 = .ok (s, H2) ∧ sampleMd.view H2 = some sampleView ∧
        ∀ b ∈ sampleMd.footprint H1, H2[b]? = H1[b]?) ∧
      (∀ a ∈ sampleMd.footprint H1, ∀ o : Obj,
        c.view (H1.set a o) = some sampleView ∧
        ∀ b ∈ c.footprint H1, (H1.set a o)[b]? = H1[b]?) ∧
      (∀ (v : ResourceMetricsSlice) (H2 : Heap),
        sampleMd.SetResourceMetrics v H1 = .ok ((), H2) →
        c.view H2 = some sampleView ∧ ∀ b ∈ c.footprint H1, H2[b]? = H1[b]?) :=
  ⟨by decide, Clone_independent sampleHeap sampleMd sampleView (by decide)⟩

/-! ## What the views reach lies in the footprint -/

/-- An access that returns has read the cell of the view and the slot of the backing
array, heap untouched. -/
theorem RMSlice_Get_inv {es : ResourceMetricsSlice} {H H1 : Heap} {i : Nat}
    {e : ResourceMetrics} (h : es.Get i H = .ok (e, H1)) :
    H1 = H ∧ ∃ c s l, es.orig = some c ∧ H[c]? = some (.cell s) ∧
      H.elems s = some l ∧ l[i]? = some e.orig := by
  unfold ResourceMetricsSlice.Get at h
  rw [Exec.bind_apply] at h
  cases hl : loadCell es.orig H with
  | error x => rw [hl] at h; simp at h
  | ok x =>
    obtain ⟨s, H2⟩ := x
    rw [hl] at h
    obtain ⟨rfl, c, hc, hoc⟩ := loadCell_inv hl
    simp only at h
    by_cases hi : i < s.len
    · simp only [hi, if_true] at h
      rw [Exec.bind_apply] at h
      unfold readSlice at h
      cases hes : H2.elems s with
      | none => simp [hes] at h
      | some l =>
        simp only [hes] at h
        cases hp : l[i]? with
        | none => simp [hp, Exec.fail] at h
        | some q =>
          simp [hp, Exec.pure_apply] at h
          refine ⟨h.2.symm, c, s, l, hc, hoc, hes, ?_⟩
          rw [← h.1]
          exact hp
    · simp [hi, Exec.fail] at h

/-- The record behind a wrapper returned by `md.ResourceMetrics().Get(i)` belongs to the
footprint of `md`. -/
theorem Get_mem_footprint {md : MetricData} {H H1 : Heap} {i : Nat} {e : ResourceMetrics}
    {a : Addr} (h : md.ResourceMetrics.Get i H = .ok (e, H1)) (he : e.orig = some a) :
    a ∈ md.footprint H ∧ ∀ b ∈ H.fpRM (some a), b ∈ md.footprint H := by
  obtain ⟨_, c, s, l, hc, hoc, hes, hl⟩ := RMSlice_Get_inv h
  have hc2 : md.orig = some c := hc
  rw [he] at hl
  have hmem : some a ∈ l := List.getElem?_mem hl
  rw [MetricData.footprint_eq hc2 hoc]
  have hsub : ∀ b ∈ H.fpRM (some a), b ∈ c :: H.fpSlice Heap.fpRM s := by
    intro b hb
    apply List.mem_cons_of_mem
    unfold Heap.fpSlice
    cases hs : s.arr with
    | none =>
      unfold Heap.elems at hes
      rw [hs] at hes
      by_cases h0 : s.len = 0
      · simp [h0] at hes
        rw [hes] at hmem
        simp at hmem
      · simp [h0] at hes
    | some d =>
      simp only [hes]
      apply List.mem_cons_of_mem
      exact List.mem_flatMap.mpr ⟨some a, hmem, hb⟩
  exact ⟨hsub a (by rw [fpRM_some]; exact List.mem_cons_self _ _), hsub⟩


/-! ## MetricCount -/

theorem inner_succ (w : Nat) (ils : InstrumentationLibraryMetricsSlice) (fuel j : Nat)
    (acc : Int) :
    MetricData.MetricCount.inner w ils (fuel + 1) j acc =
      (ils.Len >>= fun n =>
        if j < n then
          ils.Get j >>= fun e => e.Metrics >>= fun ms => ms.Len >>= fun k =>
            MetricData.MetricCount.inner w ils fuel (j + 1) (wrapInt w (acc + k))
        else pure acc) := rfl

theorem outer_succ (w : Nat) (rms : ResourceMetricsSlice) (fuel rest i : Nat) (acc : Int) :
    MetricData.MetricCount.outer w rms fuel (rest + 1) i acc =
      (rms.Len >>= fun n =>
        if i < n then
          rms.Get i >>= fun e => e.InstrumentationLibraryMetrics >>= fun ils =>
            MetricData.MetricCount.inner w ils fuel 0 acc >>= fun acc1 =>
              MetricData.MetricCount.outer w rms fuel rest (i + 1) acc1
        else pure acc) := rfl

theorem RMSlice_Len_ok {H : Heap} {c : Addr} {s : Slice} (ho : H[c]? = some (.cell s)) :
    ResourceMetricsSlice.Len ⟨some c⟩ H = .ok (s.len, H) := by
  unfold ResourceMetricsSlice.Len
  rw [Exec.bind_ok (loadCell_ok ho)]
  rfl

theorem RMSlice_Get_ok {H : Heap} {c : Addr} {s : Slice} {es : List Ptr} {i : Nat}
    {p : Ptr} (ho : H[c]? = some (.cell s)) (hes : H.elems s = some es)
    (hp : es[i]? = some p) : ResourceMetricsSlice.Get ⟨some c⟩ i H = .ok (⟨p⟩, H) := by
  have hi : i < s.len := by
    rw [← elems_length hes]
    exact (List.getElem?_eq_some.mp hp).1
  unfold ResourceMetricsSlice.Get
  rw [Exec.bind_ok (loadCell_ok ho)]
  simp only [hi, if_true]
  rw [Exec.bind_ok (readSlice_ok hes)]
  simp only [hp]
  rfl

theorem RM_ILMs_ok {H : Heap} {a : Addr} {r : RMRec} (ho : H[a]? = some (.rm r)) :
    ResourceMetrics.InstrumentationLibraryMetrics ⟨some a⟩ H = .ok (⟨some a⟩, H) := by
  unfold ResourceMetrics.InstrumentationLibraryMetrics
  rw [Exec.bind_ok (loadRM_ok ho)]
  rfl

theorem ILMSlice_Len_ok {H : Heap} {a : Addr} {r : RMRec} (ho : H[a]? = some (.rm r)) :
    InstrumentationLibraryMetricsSlice.Len ⟨some a⟩ H = .ok (r.ilms.len, H) := by
  unfold InstrumentationLibraryMetricsSlice.Len
  rw [Exec.bind_ok (loadRM_ok ho)]
  rfl

theorem ILMSlice_Get_ok {H : Heap} {a : Addr} {r : RMRec} {ls : List Ptr} {j : Nat}
    {q : Ptr} (ho : H[a]? = some (.rm r)) (hes : H.elems r.ilms = some ls)
    (hq : ls[j]? = some q) :
    InstrumentationLibraryMetricsSlice.Get ⟨some a⟩ j H = .ok (⟨q⟩, H) := by
  have hj : j < r.ilms.len := by
    rw [← elems_length hes]
    exact (List.getElem?_eq_some.mp hq).1
  unfold InstrumentationLibraryMetricsSlice.Get
  rw [Exec.bind_ok (loadRM_ok ho)]
  simp only [hj, if_true]
  rw [Exec.bind_ok (readSlice_ok hes)]
  simp only [hq]
  rfl

theorem ILM_Metrics_ok {H : Heap} {b : Addr} {r : ILMRec} (ho : H[b]? = some (.ilm r)) :
    InstrumentationLibraryMetrics.Metrics ⟨some b⟩ H = .ok (⟨some b⟩, H) := by
  unfold InstrumentationLibraryMetrics.Metrics
  rw [Exec.bind_ok (loadILM_ok ho)]
  rfl

theorem MetricSlice_Len_ok {H : Heap} {b : Addr} {r : ILMRec} (ho : H[b]? = some (.ilm r)) :
    MetricSlice.Len ⟨some b⟩ H = .ok (r.metrics.len, H) := by
  unfold MetricSlice.Len
  rw [Exec.bind_ok (loadILM_ok ho)]
  rfl

/-- The length of a slice with a value is the length of the value. -/
theorem viewSlice_length {β : Type} {view : Heap → Ptr → Option β} {H : Heap} {s : Slice}
    {vs : List β} (hv : H.viewSlice view s = some vs) :
    ∃ es, H.elems s = some es ∧ viewAll (view H) es = some vs ∧ vs.length = s.len := by
  unfold Heap.viewSlice at hv
  cases hes : H.elems s with
  | none => rw [hes] at hv; simp at hv
  | some es =>
    rw [hes] at hv
    simp only at hv
    exact ⟨es, rfl, hv, by rw [viewAll_length hv, elems_length hes]⟩

/-- The inner loop on a record whose library records are all there: to the running count
it adds, wrapping each time, the lengths of the metrics sequences from index `j` on, heap
untouched. -/
theorem inner_spec {H : Heap} {a : Addr} {r : RMRec} {lv : List (Option ILMView)} (w : Nat)
    (ho : H[a]? = some (.rm r)) (hv : H.viewSlice Heap.viewILM r.ilms = some lv)
    (hnn : ∀ l ∈ lv, l.isSome = true) :
    ∀ (fuel j : Nat) (acc : Int), j ≤ lv.length → lv.length - j < fuel →
      MetricData.MetricCount.inner w ⟨some a⟩ fuel j acc H =
        .ok ((lv.drop j).foldl (ILMView.addCount w) acc, H) := by
  obtain ⟨ls, hes, hall, hlen⟩ := viewSlice_length hv
  intro fuel
  induction fuel with
  | zero => intro j acc _ hf; omega
  | succ fuel ih =>
    intro j acc hj hf
    rw [inner_succ, Exec.bind_ok (ILMSlice_Len_ok ho)]
    by_cases hlt : j < r.ilms.len
    · simp only [hlt, if_true]
      have hjl : j < lv.length := by rw [hlen]; exact hlt
      have hjs : j < ls.length := by rw [elems_length hes]; exact hlt
      obtain ⟨v, hvj, hqv⟩ := viewAll_get hall j ls[j] (List.getElem?_eq_getElem hjs)
      have hsome := hnn v (List.getElem?_mem hvj)
      cases hq : ls[j] with
      | none =>
        rw [hq] at hqv
        simp [Heap.viewILM] at hqv
        rw [← hqv] at hsome
        simp at hsome
      | some b =>
        rw [hq] at hqv
        obtain ⟨r2, ms, hob, hms, rfl⟩ := viewILM_inv hqv
        obtain ⟨_, _, _, hmlen⟩ := viewSlice_length hms
        have hget : ls[j]? = some (some b) := by rw [List.getElem?_eq_getElem hjs, hq]
        rw [Exec.bind_ok (ILMSlice_Get_ok ho hes hget), Exec.bind_ok (ILM_Metrics_ok hob),
          Exec.bind_ok (MetricSlice_Len_ok hob),
          ih (j + 1) (wrapInt w (acc + r2.metrics.len)) hjl (by omega)]
        have hd : lv.drop j = some ⟨r2.library, ms⟩ :: lv.drop (j + 1) := by
          rw [List.drop_eq_getElem_cons hjl]
          congr 1
          have := List.getElem?_eq_getElem hjl
          rw [hvj] at this
          exact (Option.some.inj this).symm
        rw [hd]
        simp only [List.foldl_cons, ILMView.addCount, ILMView.metricCount, hmlen]
    · simp only [hlt, if_false]
      have : lv.drop j = [] := List.drop_eq_nil_of_le (by omega)
      rw [this]
      rfl

theorem noNull_get {t : GraphView} (hnn : t.noNull = true) {i : Nat} {v : Option RMView}
    (hv : t[i]? = some v) : ∃ rv, v = some rv ∧ ∀ l ∈ rv.ilms, l.isSome = true := by
  unfold GraphView.noNull at hnn
  have h := List.all_eq_true.mp hnn v (List.getElem?_mem hv)
  cases v with
  | none => simp at h
  | some rv => exact ⟨rv, rfl, fun l hl => List.all_eq_true.mp h l hl⟩

theorem size_get {t : GraphView} {i : Nat} {rv : RMView} (hv : t[i]? = some (some rv)) :
    rv.ilms.length < t.size := by
  unfold GraphView.size
  have hmem : rv.ilms.length ∈ t.map (fun r =>
      match r with
      | none => 0
      | some r => r.ilms.length) :=
    List.mem_map.mpr ⟨some rv, List.getElem?_mem hv, rfl⟩
  have h1 := List.le_sum_of_mem hmem
  have h2 : 0 < t.length := by
    have := (List.getElem?_eq_some.mp hv).1
    omega
  omega

/-- The outer loop on a root sequence with no `nil` record: to the running count it adds,
in `int` arithmetic, the counts of the records from index `i` on, heap untouched. -/
theorem outer_spec {H : Heap} {c : Addr} {s : Slice} {t : GraphView} (w : Nat)
    (ho : H[c]? = some (.cell s)) (hv : H.viewSlice Heap.viewRM s = some t)
    (hnn : t.noNull = true) (fuel : Nat) (hfuel : t.size < fuel) :
    ∀ (rest i : Nat) (acc : Int), i ≤ t.length → t.length - i < rest →
      MetricData.MetricCount.outer w ⟨some c⟩ fuel rest i acc H =
        .ok ((t.drop i).foldl (RMView.addCount w) acc, H) := by
  obtain ⟨es, hes, hall, hlen⟩ := viewSlice_length hv
  intro rest
  induction rest with
  | zero => intro i acc _ hf; omega
  | succ rest ih =>
    intro i acc hi hf
    rw [outer_succ, Exec.bind_ok (RMSlice_Len_ok ho)]
    by_cases hlt : i < s.len
    · simp only [hlt, if_true]
      have hit : i < t.length := by rw [hlen]; exact hlt
      have his : i < es.length := by rw [elems_length hes]; exact hlt
      obtain ⟨v, hvi, hpv⟩ := viewAll_get hall i es[i] (List.getElem?_eq_getElem his)
      obtain ⟨rv, rfl, hrv⟩ := noNull_get hnn hvi
      cases hp : es[i] with
      | none =>
        rw [hp] at hpv
        simp [Heap.viewRM] at hpv
      | some a =>
        rw [hp] at hpv
        obtain ⟨r, ls, hoa, hls, hrr⟩ := viewRM_inv hpv
        have hrv2 : rv = ⟨r.resource, ls⟩ := Option.some.inj hrr
        subst hrv2
        have hget : es[i]? = some (some a) := by rw [List.getElem?_eq_getElem his, hp]
        have hin := inner_spec w hoa hls hrv fuel 0 acc (Nat.zero_le _)
          (by have := size_get hvi; simp only at this; omega)
        rw [Exec.bind_ok (RMSlice_Get_ok ho hes hget), Exec.bind_ok (RM_ILMs_ok hoa),
          Exec.bind_ok hin, ih (i + 1) _ hit (by omega)]
        have hd : t.drop i = some ⟨r.resource, ls⟩ :: t.drop (i + 1) := by
          rw [List.drop_eq_getElem_cons hit]
          congr 1
          have := List.getElem?_eq_getElem hit
          rw [hvi] at this
          exact (Option.some.inj this).symm
        rw [hd]
        simp only [List.foldl_cons, RMView.addCount, List.drop_zero]
    · simp only [hlt, if_false]
      have : t.drop i = [] := List.drop_eq_nil_of_le (by omega)
      rw [this]
      rfl

/-- The count of a graph with no `nil` record, given enough fuel: the count in `int`
arithmetic of `w` bits. -/
theorem MetricCount_core {H : Heap} {md : MetricData} {t : GraphView} (w : Nat)
    (hv : md.view H = some t) (hnn : t.noNull = true) {fuel : Nat} (hf : t.size < fuel) :
    md.MetricCount w fuel H = .ok (t.goCount w, H) := by
  obtain ⟨c, s, hc, ho, hs⟩ := MetricData.view_inv hv
  unfold MetricData.MetricCount MetricData.ResourceMetrics newResourceMetricsSlice
  rw [hc, outer_spec w ho hs hnn fuel hf fuel 0 0 (Nat.zero_le _)
    (by unfold GraphView.size at hf; omega)]
  simp [GraphView.goCount]

/-! ## Arithmetic of the Go `int` -/

theorem two_pow_split {w : Nat} (hw : 0 < w) : (2 : Int) ^ w = 2 * 2 ^ (w - 1) := by
  obtain ⟨k, rfl⟩ : ∃ k, w = k + 1 := ⟨w - 1, by omega⟩
  simp [pow_succ, mul_comm]

/-- A value in the range of the `int` is left as it is. -/
theorem wrapInt_of_fits {w : Nat} (hw : 0 < w) {x : Int} (hlo : -(2 ^ (w - 1)) ≤ x)
    (hhi : x < 2 ^ (w - 1)) : wrapInt w x = x := by
  unfold wrapInt
  rw [two_pow_split hw, Int.emod_eq_of_lt (by omega) (by omega)]
  omega

/-- A wrapped addition after a wrapped value is the wrapped sum. -/
theorem wrapInt_add (w : Nat) (a b : Int) : wrapInt w (wrapInt w a + b) = wrapInt w (a + b) := by
  unfold wrapInt
  have h : (a + 2 ^ (w - 1)) % 2 ^ w - 2 ^ (w - 1) + b + 2 ^ (w - 1) =
      (a + 2 ^ (w - 1)) % 2 ^ w + b := by ring
  have h2 : a + b + 2 ^ (w - 1) = a + 2 ^ (w - 1) + b := by ring
  rw [h, h2, Int.emod_add_emod]

theorem foldl_addCount (w : Nat) : ∀ (ls : List (Option ILMView)) (a : Int),
    ls.foldl (ILMView.addCount w) (wrapInt w a) =
      wrapInt w (a + ((ls.map ILMView.metricCount).sum : Nat)) := by
  intro ls
  induction ls with
  | nil => intro a; simp
  | cons l ls ih =>
    intro a
    simp only [List.foldl_cons, ILMView.addCount, wrapInt_add, ih, List.map_cons,
      List.sum_cons, Nat.cast_add, add_assoc]

theorem RMView_addCount (w : Nat) (a : Int) (r : Option RMView) :
    RMView.addCount w (wrapInt w a) r = wrapInt w (a + (RMView.metricCount r : Nat)) := by
  cases r with
  | none => simp [RMView.addCount, RMView.metricCount]
  | some r => simp only [RMView.addCount, RMView.metricCount, foldl_addCount]

theorem foldl_RMView_addCount (w : Nat) : ∀ (t : List (Option RMView)) (a : Int),
    t.foldl (RMView.addCount w) (wrapInt w a) =
      wrapInt w (a + ((t.map RMView.metricCount).sum : Nat)) := by
  intro t
  induction t with
  | nil => intro a; simp
  | cons r t ih =>
    intro a
    simp only [List.foldl_cons, RMView_addCount, ih, List.map_cons, List.sum_cons,
      Nat.cast_add, add_assoc]

/-- The count in `int` arithmetic is the sum, wrapped to the width of the `int`. -/
theorem goCount_eq_wrap {w : Nat} (hw : 0 < w) (t : GraphView) :
    t.goCount w = wrapInt w (t.metricCount : Nat) := by
  have h0 : (0 : Int) = wrapInt w 0 :=
    (wrapInt_of_fits hw (by
      have : (0 : Int) < 2 ^ (w - 1) := by positivity
      omega) (by positivity)).symm
  unfold GraphView.goCount GraphView.metricCount
  rw [h0, foldl_RMView_addCount]
  simp

/-! ## No index out of range -/

theorem bind_ne_range {α β : Type} {x : Exec α} {f : α → Exec β} {H : Heap}
    (hx : x H ≠ .error .indexOutOfRange)
    (hf : ∀ a H1, x H = .ok (a, H1) → f a H1 ≠ .error .indexOutOfRange) :
    (x >>= f) H ≠ .error .indexOutOfRange := by
  rw [Exec.bind_apply]
  cases h : x H with
  | error e =>
    intro he
    simp only [Except.error.injEq] at he
    rw [h, he] at hx
    exact hx rfl
  | ok r =>
    obtain ⟨a, H1⟩ := r
    exact hf a H1 h

theorem load_ne_range (p : Ptr) (H : Heap) : load p H ≠ .error .indexOutOfRange := by
  unfold load
  cases p with
  | none => simp
  | some a => cases h : H[a]? <;> simp [h]

theorem load_inv {p : Ptr} {H H1 : Heap} {o : Obj} (h : load p H = .ok (o, H1)) :
    H1 = H := by
  unfold load at h
  cases p with
  | none => simp at h
  | some a =>
    cases ho : H[a]? with
    | none => simp [ho] at h
    | some o1 =>
      simp [ho] at h
      exact h.2.symm

theorem loadCell_ne_range (p : Ptr) (H : Heap) :
    loadCell p H ≠ .error .indexOutOfRange := by
  unfold loadCell
  apply bind_ne_range (load_ne_range p H)
  intro o H1 _
  cases o <;> simp [Exec.pure_apply, Exec.fail]

theorem loadRM_ne_range (p : Ptr) (H : Heap) : loadRM p H ≠ .error .indexOutOfRange := by
  unfold loadRM
  apply bind_ne_range (load_ne_range p H)
  intro o H1 _
  cases o <;> simp [Exec.pure_apply, Exec.fail]

theorem loadILM_ne_range (p : Ptr) (H : Heap) : loadILM p H ≠ .error .indexOutOfRange := by
  unfold loadILM
  apply bind_ne_range (load_ne_range p H)
  intro o H1 _
  cases o <;> simp [Exec.pure_apply, Exec.fail]

theorem loadRM_inv {p : Ptr} {H H1 : Heap} {r : RMRec} (h : loadRM p H = .ok (r, H1)) :
    H1 = H := by
  unfold loadRM at h
  rw [Exec.bind_apply] at h
  cases hl : load p H with
  | error e => rw [hl] at h; simp at h
  | ok x =>
    obtain ⟨o, H2⟩ := x
    rw [hl] at h
    have h2 := load_inv hl
    subst h2
    cases o <;> simp [Exec.pure_apply, Exec.fail] at h
    exact h.2.symm

theorem readSlice_ne_range (s : Slice) (H : Heap) :
    readSlice s H ≠ .error .indexOutOfRange := by
  unfold readSlice
  cases h : H.elems s <;> simp [h]

theorem RMSlice_Len_ne_range (es : ResourceMetricsSlice) (H : Heap) :
    es.Len H ≠ .error .indexOutOfRange := by
  unfold ResourceMetricsSlice.Len
  apply bind_ne_range (loadCell_ne_range _ H)
  intro s H1 _
  simp [Exec.pure_apply]

/-- A length that was returned was read from the cell of the view, heap untouched. -/
theorem RMSlice_Len_inv {es : ResourceMetricsSlice} {H H1 : Heap} {n : Nat}
    (h : es.Len H = .ok (n, H1)) :
    H1 = H ∧ ∃ s, loadCell es.orig H = .ok (s, H) ∧ n = s.len := by
  unfold ResourceMetricsSlice.Len at h
  rw [Exec.bind_apply] at h
  cases hl : loadCell es.orig H with
  | error e => rw [hl] at h; simp at h
  | ok x =>
    obtain ⟨s, H2⟩ := x
    rw [hl] at h
    obtain ⟨rfl, _⟩ := loadCell_inv hl
    simp [Exec.pure_apply] at h
    exact ⟨h.2.symm, s, rfl, h.1.symm⟩

/-- An access below the length just read does not fail with `indexOutOfRange`. -/
theorem RMSlice_Get_ne_range {es : ResourceMetricsSlice} {H : Heap} {s : Slice} {i : Nat}
    (hl : loadCell es.orig H = .ok (s, H)) (hi : i < s.len) :
    es.Get i H ≠ .error .indexOutOfRange := by
  unfold ResourceMetricsSlice.Get
  rw [Exec.bind_ok hl]
  simp only [hi, if_true]
  apply bind_ne_range (readSlice_ne_range s H)
  intro l H1 _
  cases h : l[i]? <;> simp [h, Exec.pure_apply, Exec.fail]

theorem RM_ILMs_ne_range (ms : ResourceMetrics) (H : Heap) :
    ms.InstrumentationLibraryMetrics H ≠ .error .indexOutOfRange := by
  unfold ResourceMetrics.InstrumentationLibraryMetrics
  apply bind_ne_range (loadRM_ne_range _ H)
  intro s H1 _
  simp [Exec.pure_apply]

theorem ILMSlice_Len_ne_range (es : InstrumentationLibraryMetricsSlice) (H : Heap) :
    es.Len H ≠ .error .indexOutOfRange := by
  unfold InstrumentationLibraryMetricsSlice.Len
  apply bind_ne_range (loadRM_ne_range _ H)
  intro s H1 _
  simp [Exec.pure_apply]

theorem ILMSlice_Len_inv {es : InstrumentationLibraryMetricsSlice} {H H1 : Heap} {n : Nat}
    (h : es.Len H = .ok (n, H1)) :
    H1 = H ∧ ∃ r, loadRM es.owner H = .ok (r, H) ∧ n = r.ilms.len := by
  unfold InstrumentationLibraryMetricsSlice.Len at h
  rw [Exec.bind_apply] at h
  cases hl : loadRM es.owner H with
  | error e => rw [hl] at h; simp at h
  | ok x =>
    obtain ⟨r, H2⟩ := x
    rw [hl] at h
    have h2 := loadRM_inv hl
    subst h2
    simp [Exec.pure_apply] at h
    exact ⟨h.2.symm, r, rfl, h.1.symm⟩

theorem ILMSlice_Get_ne_range {es : InstrumentationLibraryMetricsSlice} {H : Heap}
    {r : RMRec} {j : Nat} (hl : loadRM es.owner H = .ok (r, H)) (hj : j < r.ilms.len) :
    es.Get j H ≠ .error .indexOutOfRange := by
  unfold InstrumentationLibraryMetricsSlice.Get
  rw [Exec.bind_ok hl]
  simp only [hj, if_true]
  apply bind_ne_range (readSlice_ne_range _ H)
  intro l H1 _
  cases h : l[j]? <;> simp [h, Exec.pure_apply, Exec.fail]

theorem ILM_Metrics_ne_range (ms : InstrumentationLibraryMetrics) (H : Heap) :
    ms.Metrics H ≠ .error .indexOutOfRange := by
  unfold InstrumentationLibraryMetrics.Metrics
  apply bind_ne_range (loadILM_ne_range _ H)
  intro s H1 _
  simp [Exec.pure_apply]

theorem MetricSlice_Len_ne_range (es : MetricSlice) (H : Heap) :
    es.Len H ≠ .error .indexOutOfRange := by
  unfold MetricSlice.Len
  apply bind_ne_range (loadILM_ne_range _ H)
  intro s H1 _
  simp [Exec.pure_apply]

/-- The inner loop never fails with `indexOutOfRange`, whatever the heap. -/
theorem inner_ne_range (w : Nat) (ils : InstrumentationLibraryMetricsSlice) :
    ∀ (fuel j : Nat) (acc : Int) (H : Heap),
      MetricData.MetricCount.inner w ils fuel j acc H ≠ .error .indexOutOfRange := by
  intro fuel
  induction fuel with
  | zero => intro j acc H; simp [MetricData.MetricCount.inner, Exec.fail]
  | succ fuel ih =>
    intro j acc H
    rw [inner_succ]
    apply bind_ne_range (ILMSlice_Len_ne_range ils H)
    intro n H1 hn
    obtain ⟨rfl, r, hr, rfl⟩ := ILMSlice_Len_inv hn
    by_cases hlt : j < r.ilms.len
    · simp only [hlt, if_true]
      apply bind_ne_range (ILMSlice_Get_ne_range hr hlt)
      intro e H2 _
      apply bind_ne_range (ILM_Metrics_ne_range e H2)
      intro ms H3 _
      apply bind_ne_range (MetricSlice_Len_ne_range ms H3)
      intro k H4 _
      exact ih _ _ _
    · simp only [hlt, if_false]
      simp [Exec.pure_apply]

/-- The outer loop never fails with `indexOutOfRange`, whatever the heap. -/
theorem outer_ne_range (w : Nat) (rms : ResourceMetricsSlice) (fuel : Nat) :
    ∀ (rest i : Nat) (acc : Int) (H : Heap),
      MetricData.MetricCount.outer w rms fuel rest i acc H ≠ .error .indexOutOfRange := by
  intro rest
  induction rest with
  | zero => intro i acc H; simp [MetricData.MetricCount.outer, Exec.fail]
  | succ rest ih =>
    intro i acc H
    rw [outer_succ]
    apply bind_ne_range (RMSlice_Len_ne_range rms H)
    intro n H1 hn
    obtain ⟨rfl, s, hs, rfl⟩ := RMSlice_Len_inv hn
    by_cases hlt : i < s.len
    · simp only [hlt, if_true]
      apply bind_ne_range (RMSlice_Get_ne_range hs hlt)
      intro e H2 _
      apply bind_ne_range (RM_ILMs_ne_range e H2)
      intro ils H3 _
      apply bind_ne_range (inner_ne_range w ils fuel 0 acc H3)
      intro k H4 _
      exact ih _ _ _
    · simp only [hlt, if_false]
      simp [Exec.pure_apply]

/-! ## A graph whose count does not fit in an `int` -/

theorem viewAll_replicate {α β : Type} {f : α → Option β} {p : α} {v : β}
    (h : f p = some v) (n : Nat) :
    viewAll f (List.replicate n p) = some (List.replicate n v) := by
  induction n with
  | zero => rfl
  | succ n ih => simp [List.replicate_succ, viewAll, h, ih]

theorem elems_replicate {H : Heap} {a : Addr} {n : Nat} {p : Ptr}
    (h : H[a]? = some (.arr (List.replicate n p))) :
    H.elems ⟨some a, n⟩ = some (List.replicate n p) := by
  unfold Heap.elems
  simp [h]

theorem viewSlice_replicate {β : Type} {view : Heap → Ptr → Option β} {H : Heap} {a : Addr}
    {n : Nat} {p : Ptr} {v : β} (h : H[a]? = some (.arr (List.replicate n p)))
    (hp : view H p = some v) :
    H.viewSlice view ⟨some a, n⟩ = some (List.replicate n v) := by
  unfold Heap.viewSlice
  rw [elems_replicate h]
  exact viewAll_replicate hp n

theorem overflow_view (n : Nat) : overflowMd.view (overflowHeap n) = some (overflowView n) := by
  have hm : (overflowHeap n).viewMetric (some 0) = some (some ⟨1, []⟩) := rfl
  have hl : (overflowHeap n).viewILM (some 2) =
      some (some ⟨70, List.replicate n (some ⟨1, []⟩)⟩) := by
    have ho : (overflowHeap n)[2]? = some (.ilm ⟨70, ⟨some 1, n⟩⟩) := rfl
    have hs : (overflowHeap n).viewSlice Heap.viewMetric ⟨some 1, n⟩ = _ :=
      viewSlice_replicate rfl hm
    rw [viewILM_some, ho]
    simp only [hs]
  have hr : (overflowHeap n).viewRM (some 4) =
      some (some ⟨90, List.replicate n (some ⟨70, List.replicate n (some ⟨1, []⟩)⟩)⟩) := by
    have ho : (overflowHeap n)[4]? = some (.rm ⟨90, ⟨some 3, n⟩⟩) := rfl
    have hs : (overflowHeap n).viewSlice Heap.viewILM ⟨some 3, n⟩ = _ :=
      viewSlice_replicate rfl hl
    rw [viewRM_some, ho]
    simp only [hs]
  have hc : (overflowHeap n)[6]? = some (.cell ⟨some 5, n⟩) := rfl
  have hmd : overflowMd.orig = some 6 := rfl
  rw [MetricData.view_eq hmd hc]
  exact viewSlice_replicate rfl hr

theorem overflow_noNull (n : Nat) : (overflowView n).noNull = true := by
  unfold GraphView.noNull overflowView
  rw [List.all_eq_true]
  intro x hx
  rw [List.eq_of_mem_replicate hx]
  simp only
  rw [List.all_eq_true]
  intro l hl
  rw [List.eq_of_mem_replicate hl]
  rfl

theorem overflow_size (n : Nat) : (overflowView n).size = n + n * n := by
  simp [GraphView.size, overflowView, List.map_replicate, List.sum_replicate]

theorem overflow_count (n : Nat) : (overflowView n).metricCount = n * (n * n) := by
  simp [GraphView.metricCount, overflowView, RMView.metricCount, ILMView.metricCount,
    List.map_replicate, List.sum_replicate]

/-- On the graph of `overflowHeap n` the function returns `n * n * n` wrapped. -/
theorem overflow_run (n w fuel : Nat) (hw : 0 < w) (hf : n + n * n < fuel) :
    overflowMd.MetricCount w fuel (overflowHeap n) =
      .ok (wrapInt w ((n * (n * n) : Nat) : Int), overflowHeap n) := by
  rw [MetricCount_core w (overflow_view n) (overflow_noNull n)
    (by rw [overflow_size]; exact hf), goCount_eq_wrap hw, overflow_count]

theorem wrapInt_64_overflow :
    wrapInt 64 ((2 ^ 21 * (2 ^ 21 * 2 ^ 21) : Nat) : Int) = -(2 ^ 63) := by
  norm_num [wrapInt]

/-! ## The claims on `MetricCount` -/

/-- Claim C1, amended. For every handle `md` whose graph has a value `t` with no `nil`
record in the root sequence nor in a nested library sequence, on a platform whose `int`
has `w` bits, `md.MetricCount()` returns the sum, over every resource-metrics record and
every library record inside it, of the length of its metrics sequence, computed in
`int` arithmetic: the sum wrapped to `w` bits, which is the sum itself whenever the sum
is below `2 ^ (w - 1)`. The result is computed from the value of the graph in the heap of
the call, which the call leaves as it is. -/
theorem MetricCount_eq_sum (H : Heap) (md : MetricData) (t : GraphView) (w fuel : Nat)
    (hv : md.view H = some t) (hnn : t.noNull = true) (hf : t.size < fuel) (hw : 0 < w) :
    md.MetricCount w fuel H = .ok (wrapInt w (t.metricCount : Nat), H) ∧
    (t.metricCount < 2 ^ (w - 1) →
      md.MetricCount w fuel H = .ok ((t.metricCount : Nat), H)) := by
  have h : md.MetricCount w fuel H = .ok (wrapInt w (t.metricCount : Nat), H) := by
    rw [MetricCount_core w hv hnn hf, goCount_eq_wrap hw]
  refine ⟨h, fun hfit => ?_⟩
  rw [h, wrapInt_of_fits hw]
  · have h0 : (0 : Int) ≤ (t.metricCount : Nat) := Int.natCast_nonneg _
    have h1 : (0 : Int) < 2 ^ (w - 1) := by positivity
    omega
  · exact_mod_cast hfit

/-- C1 on the sample heap with a 64-bit `int`: records with 3 and 5 metrics give 8. -/
theorem MetricCount_eq_sum_witness :
    sampleMd.view sampleHeap = some sampleView ∧ sampleView.noNull = true ∧
    sampleView.size < 5 ∧ 0 < 64 ∧ sampleView.metricCount = 8 ∧
    sampleMd.MetricCount 64 5 sampleHeap = .ok (8, sampleHeap) ∧
    (sampleMd.MetricCount 64 5 sampleHeap =
        .ok (wrapInt 64 (sampleView.metricCount : Nat), sampleHeap) ∧
      (sampleView.metricCount < 2 ^ (64 - 1) →
        sampleMd.MetricCount 64 5 sampleHeap =
          .ok ((sampleView.metricCount : Nat), sampleHeap))) :=
  ⟨by decide, by decide, by decide, by decide, by decide, by decide,
    MetricCount_eq_sum sampleHeap sampleMd sampleView 64 5 (by decide) (by decide)
      (by decide) (by decide)⟩

/-- Claim C1 as stated fails in two ways. On a valid handle whose root sequence holds a
`nil` record the sum over its records is 0, and `MetricCount` stops with a nil
dereference whatever the width of the `int` and the fuel. On the graph of
`overflowHeap (2 ^ 21)`, seven objects and no `nil` record, the sum is `2 ^ 63`, and
with a 64-bit `int` `MetricCount` returns `-2 ^ 63`. -/
theorem MetricCount_nil_record :
    nilRecordMd.orig ≠ none ∧
    MetricDataToOtlp nilRecordMd nilRecordHeap = .ok (⟨some 0, 1⟩, nilRecordHeap) ∧
    nilRecordMd.view nilRecordHeap = some [none] ∧
    GraphView.metricCount [none] = 0 ∧
    (∀ w fuel, nilRecordMd.MetricCount w (fuel + 1) nilRecordHeap = .error .nilDeref) ∧
    (∀ w, nilRecordMd.MetricCount w 0 nilRecordHeap = .error .outOfFuel) ∧
    overflowMd.view (overflowHeap (2 ^ 21)) = some (overflowView (2 ^ 21)) ∧
    (overflowView (2 ^ 21)).noNull = true ∧
    (overflowView (2 ^ 21)).metricCount = 2 ^ 63 ∧
    overflowMd.MetricCount 64 (2 ^ 43) (overflowHeap (2 ^ 21)) =
      .ok (-(2 ^ 63), overflowHeap (2 ^ 21)) :=
  ⟨by decide, rfl, rfl, rfl, fun _ _ => rfl, fun _ => rfl, overflow_view _,
    overflow_noNull _, by rw [overflow_count]; norm_num,
    by rw [overflow_run _ _ _ (by decide) (by norm_num), wrapInt_64_overflow]⟩

/-- Claim C10. For every handle `md` whose graph has a value `t` with no `nil` record in
the root sequence nor in a nested library sequence, `md.MetricCount()` terminates (any
fuel above the number of records is enough, whatever the width of the `int`), returns a
count without a fault, so every `Get` it made was in range, and leaves the heap, hence
the root sequence and every nested record, as it found it. Moreover the guard
`i < Len()` alone keeps every access in range: on any heap, any handle, any width and any
fuel, `MetricCount` never stops with `indexOutOfRange`. -/
theorem MetricCount_in_range (H : Heap) (md : MetricData) (t : GraphView)
    (hv : md.view H = some t) (hnn : t.noNull = true) :
    (∀ w fuel, t.size < fuel → ∃ n, md.MetricCount w fuel H = .ok (n, H)) ∧
    (∀ (H0 : Heap) (md0 : MetricData) (w fuel : Nat),
      md0.MetricCount w fuel H0 ≠ .error .indexOutOfRange) :=
  ⟨fun w _ hf => ⟨t.goCount w, MetricCount_core w hv hnn hf⟩,
    fun H0 md0 w fuel => outer_ne_range w md0.ResourceMetrics fuel fuel 0 0 H0⟩

/-- C10 on the sample heap. -/
theorem MetricCount_in_range_witness :
    sampleMd.view sampleHeap = some sampleView ∧ sampleView.noNull = true ∧
    ((∀ w fuel, sampleView.size < fuel →
        ∃ n, sampleMd.MetricCount w fuel sampleHeap = .ok (n, sampleHeap)) ∧
      (∀ (H0 : Heap) (md0 : MetricData) (w fuel : Nat),
        md0.MetricCount w fuel H0 ≠ .error .indexOutOfRange)) :=
  ⟨by decide, by decide,
    MetricCount_in_range sampleHeap sampleMd sampleView (by decide) (by decide)⟩

/-! ## The claims on the handle -/

/-- Claim C8. `NewMetricData()` returns a handle with a non-nil indirection to a slice
variable that did not exist before and holds the `nil` slice: `MetricDataToOtlp` of it has
length 0, `ResourceMetrics().Len()` is 0, `MetricCount()` is 0 (any width of the `int`,
any fuel of at least one loop test). A second call returns another handle: the two
indirections differ and the two footprints share no address. -/
theorem NewMetricData_fresh_empty (H : Heap) :
    ∃ md H1, NewMetricData H = .ok (md, H1) ∧ md.orig ≠ none ∧
      (∀ a, md.orig = some a → H[a]? = none) ∧ H.Extends H1 ∧
      MetricDataToOtlp md H1 = .ok (Slice.nil, H1) ∧ Slice.nil.len = 0 ∧
      H1.elems Slice.nil = some [] ∧ md.view H1 = some [] ∧
      md.ResourceMetrics.Len H1 = .ok (0, H1) ∧
      (∀ w fuel, md.MetricCount w (fuel + 1) H1 = .ok (0, H1)) ∧
      ∃ md2 H2, NewMetricData H1 = .ok (md2, H2) ∧ md2.orig ≠ md.orig ∧
        md.view H2 = some [] ∧ md2.view H2 = some [] ∧
        ∀ a ∈ md.footprint H2, a ∉ md2.footprint H2 := by
  have hcell : (H ++ [Obj.cell Slice.nil])[H.length]? = some (Obj.cell Slice.nil) :=
    List.getElem?_concat_length _ _
  have hview : (⟨some H.length⟩ : MetricData).view (H ++ [Obj.cell Slice.nil]) = some [] := by
    rw [MetricData.view_eq rfl hcell]
    rfl
  have hcell2 : (H ++ [Obj.cell Slice.nil] ++ [Obj.cell Slice.nil])[
      (H ++ [Obj.cell Slice.nil]).length]? = some (Obj.cell Slice.nil) :=
    List.getElem?_concat_length _ _
  have hcell1 : (H ++ [Obj.cell Slice.nil] ++ [Obj.cell Slice.nil])[H.length]? =
      some (Obj.cell Slice.nil) := by
    rw [(Heap.Extends.snoc _ _).get (by simp)]
    exact hcell
  refine ⟨⟨some H.length⟩, H ++ [Obj.cell Slice.nil], rfl, by simp, ?_,
    Heap.Extends.snoc H _, MetricDataToOtlp_ok rfl hcell, rfl, rfl, hview,
    RMSlice_Len_ok hcell, ?_, ?_⟩
  · intro a ha
    simp only [Option.some.injEq] at ha
    subst ha
    exact List.getElem?_eq_none (le_refl _)
  · intro w fuel
    have h := MetricCount_core w hview (by decide) (Nat.succ_pos fuel)
    exact h
  · refine ⟨⟨some (H ++ [Obj.cell Slice.nil]).length⟩,
      H ++ [Obj.cell Slice.nil] ++ [Obj.cell Slice.nil], rfl, ?_, ?_, ?_, ?_⟩
    · simp
    · rw [MetricData.view_eq rfl hcell1]
      rfl
    · rw [MetricData.view_eq rfl hcell2]
      rfl
    · rw [MetricData.footprint_eq rfl hcell1, MetricData.footprint_eq rfl hcell2]
      simp [Heap.fpSlice, Slice.nil]

/-- Claim C9. The `const` block declares exactly eight `MetricType` constants, pairwise
distinct, whose numbers are the wire tags 0 to 7 of the descriptor types they are
converted from; the conversion to the wire type and back returns the same value for every
`MetricType` value (and the other way round), and the conversion is injective, on the
eight constants in particular. -/
theorem MetricType_wire_roundtrip :
    MetricType.constants.length = 8 ∧
    MetricType.constants.map (fun t => t.tag) = [0, 1, 2, 3, 4, 5, 6, 7] ∧
    MetricType.constants.map MetricType.toWire =
      [MetricDescriptor_UNSPECIFIED, MetricDescriptor_GAUGE_INT64,
       MetricDescriptor_GAUGE_DOUBLE, MetricDescriptor_GAUGE_HISTOGRAM,
       MetricDescriptor_COUNTER_INT64, MetricDescriptor_COUNTER_DOUBLE,
       MetricDescriptor_CUMULATIVE_HISTOGRAM, MetricDescriptor_SUMMARY] ∧
    MetricType.constants.Nodup ∧
    (∀ t : MetricType, MetricType.ofWire (MetricType.toWire t) = t) ∧
    (∀ w : MetricDescriptor_Type, MetricType.toWire (MetricType.ofWire w) = w) ∧
    (∀ a ∈ MetricType.constants, ∀ b ∈ MetricType.constants,
      MetricType.toWire a = MetricType.toWire b → a = b) := by
  refine ⟨rfl, rfl, rfl, by decide, fun _ => rfl, fun _ => rfl, ?_⟩
  intro a _ b _ h
  have h2 : MetricType.ofWire (MetricType.toWire a) = MetricType.ofWire (MetricType.toWire b) := by
    rw [h]
  exact h2

/-- Two views whose cells hold the same slice return the same element at every index. -/
theorem RMSlice_Get_congr {es1 es2 : ResourceMetricsSlice} {H : Heap}
    (h : loadCell es1.orig H = loadCell es2.orig H) (i : Nat) :
    es1.Get i H = es2.Get i H := by
  unfold ResourceMetricsSlice.Get
  rw [Exec.bind_apply, Exec.bind_apply, h]

theorem RMSlice_Len_congr {es1 es2 : ResourceMetricsSlice} {H : Heap}
    (h : loadCell es1.orig H = loadCell es2.orig H) : es1.Len H = es2.Len H := by
  unfold ResourceMetricsSlice.Len
  rw [Exec.bind_apply, Exec.bind_apply, h]

theorem getElem?_set_cell {H : Heap} {b : Addr} {s : Slice} (a : Addr)
    (hb : H[b]? = some (Obj.cell s)) :
    (H.set a (Obj.cell s))[b]? = some (Obj.cell s) := by
  rw [List.getElem?_set]
  by_cases h : a = b
  · simp [h, lt_length_of_get hb]
  · simp [h, hb]

/-- Claim C6. For every handle `md` over a slice variable and every view `v` over a slice
variable holding `s`, `md.SetResourceMetrics(v)` returns, having changed the cell of `md`
and no other object (nothing is allocated, no element is copied). Afterwards, for every
copy `md1` of the handle, `MetricDataToOtlp(md1)` is the slice `s` itself (same backing
array, same length), `md1.ResourceMetrics().Len()` equals `v.Len()`, and
`md1.ResourceMetrics().Get(i)` returns what `v.Get(i)` returns at every index: the same
element reference. -/
theorem SetResourceMetrics_then_ResourceMetrics (H : Heap) (md : MetricData)
    (v : ResourceMetricsSlice) (a b : Addr) (s0 s : Slice) (hmd : md.orig = some a)
    (ha : H[a]? = some (.cell s0)) (hv : v.orig = some b) (hb : H[b]? = some (.cell s)) :
    ∃ H2, md.SetResourceMetrics v H = .ok ((), H2) ∧
      H2.length = H.length ∧ (∀ c, c ≠ a → H2[c]? = H[c]?) ∧
      ∀ md1 : MetricData, md1 = md →
        MetricDataToOtlp md1 H2 = .ok (s, H2) ∧
        md1.ResourceMetrics.Len H2 = .ok (s.len, H2) ∧
        v.Len H2 = .ok (s.len, H2) ∧
        ∀ i, md1.ResourceMetrics.Get i H2 = v.Get i H2 := by
  have ha2 : (H.set a (Obj.cell s))[a]? = some (Obj.cell s) :=
    List.getElem?_set_self (lt_length_of_get ha)
  have hb2 : (H.set a (Obj.cell s))[b]? = some (Obj.cell s) := getElem?_set_cell a hb
  refine ⟨H.set a (.cell s), SetResourceMetrics_ok hmd ha hv hb, List.length_set _ _ _,
    fun c hc => List.getElem?_set_ne (Ne.symm hc), ?_⟩
  intro md1 hmd1
  subst hmd1
  have hl : loadCell (md1.ResourceMetrics).orig (H.set a (Obj.cell s)) = loadCell v.orig
      (H.set a (Obj.cell s)) := by
    show loadCell md1.orig _ = _
    rw [hmd, hv, loadCell_ok ha2, loadCell_ok hb2]
  have hlen : v.Len (H.set a (Obj.cell s)) = .ok (s.len, H.set a (Obj.cell s)) := by
    have h := RMSlice_Len_ok hb2
    rw [← hv] at h
    exact h
  exact ⟨MetricDataToOtlp_ok hmd ha2, by rw [RMSlice_Len_congr hl, hlen], hlen,
    fun i => RMSlice_Get_congr hl i⟩

/-- C6 on the heap with two graphs: the handle over `g` is set from the view over the
other slice. -/
theorem SetResourceMetrics_then_ResourceMetrics_witness :
    graphMd.orig = some 4 ∧ twoGraphHeap[4]? = some (.cell graphSlice) ∧
    otherView.orig = some 5 ∧ twoGraphHeap[5]? = some (.cell otherSlice) ∧
    ∃ H2, graphMd.SetResourceMetrics otherView twoGraphHeap = .ok ((), H2) ∧
      H2.length = twoGraphHeap.length ∧ (∀ c, c ≠ 4 → H2[c]? = twoGraphHeap[c]?) ∧
      ∀ md1 : MetricData, md1 = graphMd →
        MetricDataToOtlp md1 H2 = .ok (otherSlice, H2) ∧
        md1.ResourceMetrics.Len H2 = .ok (otherSlice.len, H2) ∧
        otherView.Len H2 = .ok (otherSlice.len, H2) ∧
        ∀ i, md1.ResourceMetrics.Get i H2 = otherView.Get i H2 :=
  ⟨rfl, rfl, rfl, rfl,
    SetResourceMetrics_then_ResourceMetrics twoGraphHeap graphMd otherView 4 5 graphSlice
      otherSlice rfl rfl rfl rfl⟩

/-- Claim C7. For every handle `md` whose root sequence has a record at index 0, two
views obtained by two calls of `md.ResourceMetrics()` return at `Get(0)` wrappers of the
same record; a record written through the first wrapper is read back through the second
one, and through the wrapper returned by a third `md.ResourceMetrics().Get(0)` made after
the write. -/
theorem ResourceMetrics_Get_alias (H : Heap) (md : MetricData) (c a : Addr) (s : Slice)
    (es : List Ptr) (r r1 : RMRec) (hmd : md.orig = some c)
    (hc : H[c]? = some (.cell s)) (hes : H.elems s = some es)
    (h0 : es[0]? = some (some a)) (ha : H[a]? = some (.rm r)) :
    ∀ v1 v2 : ResourceMetricsSlice, v1 = md.ResourceMetrics → v2 = md.ResourceMetrics →
      ∃ e1 e2 H2, v1.Get 0 H = .ok (e1, H) ∧ v2.Get 0 H = .ok (e2, H) ∧
        e1.orig = e2.orig ∧ e1.write r1 H = .ok ((), H2) ∧
        e2.read H2 = .ok (r1, H2) ∧ md.ResourceMetrics.Get 0 H2 = .ok (e2, H2) := by
  intro v1 v2 hv1 hv2
  subst hv1 hv2
  have hget : md.ResourceMetrics.Get 0 H = .ok (⟨some a⟩, H) := by
    unfold MetricData.ResourceMetrics newResourceMetricsSlice
    rw [hmd]
    exact RMSlice_Get_ok hc hes h0
  have hlt : a < H.length := lt_length_of_get ha
  have hac : a ≠ c := by
    intro h
    rw [h, hc] at ha
    simp at ha
  have hc2 : (H.set a (Obj.rm r1))[c]? = some (.cell s) := by
    rw [List.getElem?_set_ne hac, hc]
  have hes2 : Heap.elems (H.set a (Obj.rm r1)) s = some es := by
    rw [← hes]
    apply elems_congr
    intro b hb
    apply List.getElem?_set_ne
    intro hab
    subst hab
    unfold Heap.elems at hes
    simp only [hb, ha] at hes
    simp at hes
  refine ⟨⟨some a⟩, ⟨some a⟩, H.set a (.rm r1), hget, hget, rfl, ?_, ?_, ?_⟩
  · unfold ResourceMetrics.write
    rw [Exec.bind_ok (loadRM_ok ha)]
    simp [store, hlt]
  · exact loadRM_ok (List.getElem?_set_self hlt)
  · unfold MetricData.ResourceMetrics newResourceMetricsSlice
    rw [hmd]
    exact RMSlice_Get_ok hc2 hes2 h0

/-- C7 on the heap with two graphs. -/
theorem ResourceMetrics_Get_alias_witness :
    graphMd.orig = some 4 ∧ twoGraphHeap[4]? = some (.cell graphSlice) ∧
    twoGraphHeap.elems graphSlice = some [some 0] ∧
    [some 0][0]? = some (some 0) ∧ twoGraphHeap[0]? = some (.rm ⟨90, Slice.nil⟩) ∧
    ∀ v1 v2 : ResourceMetricsSlice, v1 = graphMd.ResourceMetrics →
      v2 = graphMd.ResourceMetrics →
      ∃ e1 e2 H2, v1.Get 0 twoGraphHeap = .ok (e1, twoGraphHeap) ∧
        v2.Get 0 twoGraphHeap = .ok (e2, twoGraphHeap) ∧
        e1.orig = e2.orig ∧ e1.write ⟨7, Slice.nil⟩ twoGraphHeap = .ok ((), H2) ∧
        e2.read H2 = .ok (⟨7, Slice.nil⟩, H2) ∧
        graphMd.ResourceMetrics.Get 0 H2 = .ok (e2, H2) :=
  ⟨rfl, rfl, rfl, rfl, rfl,
    ResourceMetrics_Get_alias twoGraphHeap graphMd 4 0 graphSlice [some 0] ⟨90, Slice.nil⟩
      ⟨7, Slice.nil⟩ rfl rfl rfl rfl rfl⟩

/-- Claim C2 as stated fails. The caller's variable at 4 holds the slice `g`; after
`md = MetricDataFromOtlp(g)` and `md.SetResourceMetrics(v)`, with `v` over the other
slice, the handle holds the other slice, while the caller's variable still holds `g` and
`g` still has its own element, not the element of `v`. -/
theorem FromOtlp_set_not_seen_by_graph :
    loadCell (some 4) twoGraphHeap = .ok (graphSlice, twoGraphHeap) ∧
    ∃ md H1 H2, MetricDataFromOtlp graphSlice twoGraphHeap = .ok (md, H1) ∧
      md.SetResourceMetrics otherView H1 = .ok ((), H2) ∧
      MetricDataToOtlp md H2 = .ok (otherSlice, H2) ∧
      loadCell (some 4) H2 = .ok (graphSlice, H2) ∧
      H2.elems graphSlice = some [some 0] ∧
      H2.elems otherSlice = some [some 1] ∧
      H2.elems graphSlice ≠ H2.elems otherSlice :=
  ⟨rfl, _, _, _, rfl, rfl, rfl, rfl, rfl, rfl, by decide⟩

/-- Claim C2, amended. For every slice value `g`, `md = MetricDataFromOtlp(g)` is a handle
over a new slice variable, one that did not exist before the call, holding `g`: the same
backing array and length, hence the same element references. After a write at any other
address (a record, a slot of the backing array, made through `md` or through `g`) the
handle still holds `g`, so the value seen through `md` is the value of `g`.
`md.SetResourceMetrics(v)` overwrites the variable of the handle only: the handle then
holds the slice of `v`, and every object that existed before the wrap (the backing array
of `g`, its records, any variable holding `g`) is as it was. -/
theorem FromOtlp_shares_elements (H : Heap) (g : Slice) :
    ∃ md H1 c, MetricDataFromOtlp g H = .ok (md, H1) ∧ H.Extends H1 ∧
      md.orig = some c ∧ H[c]? = none ∧
      MetricDataToOtlp md H1 = .ok (g, H1) ∧
      (∀ (a : Addr) (o : Obj), a ≠ c →
        MetricDataToOtlp md (H1.set a o) = .ok (g, H1.set a o) ∧
        md.view (H1.set a o) = Heap.viewSlice Heap.viewRM (H1.set a o) g) ∧
      (∀ (v : ResourceMetricsSlice) (H2 : Heap), md.SetResourceMetrics v H1 = .ok ((), H2) →
        (∃ s, loadCell v.orig H1 = .ok (s, H1) ∧ MetricDataToOtlp md H2 = .ok (s, H2)) ∧
        (∀ b, b < H.length → H2[b]? = H[b]?) ∧ H2.elems g = H.elems g) := by
  have hcell : (H ++ [Obj.cell g])[H.length]? = some (Obj.cell g) :=
    List.getElem?_concat_length _ _
  refine ⟨⟨some H.length⟩, H ++ [Obj.cell g], H.length, rfl, Heap.Extends.snoc H _, rfl,
    List.getElem?_eq_none (le_refl _), MetricDataToOtlp_ok rfl hcell, ?_, ?_⟩
  · intro a o hac
    have h : ((H ++ [Obj.cell g]).set a o)[H.length]? = some (Obj.cell g) := by
      rw [List.getElem?_set_ne hac, hcell]
    exact ⟨MetricDataToOtlp_ok rfl h, MetricData.view_eq rfl h⟩
  · intro v H2 hset
    obtain ⟨a, b, s0, sv, hma, hoa, hvb, hob, rfl⟩ := SetResourceMetrics_inv hset
    simp only [Option.some.injEq] at hma
    subst hma
    have hold : ∀ b, b < H.length →
        ((H ++ [Obj.cell g]).set H.length (Obj.cell sv))[b]? = H[b]? := by
      intro b hb
      rw [List.getElem?_set_ne (by omega), List.getElem?_append_left hb]
    refine ⟨⟨sv, ?_, ?_⟩, hold, ?_⟩
    · rw [hvb]
      exact loadCell_ok hob
    · exact MetricDataToOtlp_ok rfl (List.getElem?_set_self (lt_length_of_get hoa))
    · unfold Heap.elems
      cases hg : g.arr with
      | none => rfl
      | some d =>
        simp only
        by_cases hlt : d < H.length
        · rw [hold d hlt]
        · have h1 : H[d]? = none := List.getElem?_eq_none (Nat.le_of_not_lt hlt)
          rw [h1]
          by_cases hdl : d = H.length
          · rw [hdl, List.getElem?_set_self (lt_length_of_get hoa)]
          · have h2 : ((H ++ [Obj.cell g]).set H.length (Obj.cell sv))[d]? = none := by
              apply List.getElem?_eq_none
              simp only [List.length_set, List.length_append, List.length_singleton]
              exact Nat.succ_le_of_lt
                (Nat.lt_of_le_of_ne (Nat.le_of_not_lt hlt) (Ne.symm hdl))
            rw [h2]

/-- Claim C5 as stated fails. `md2 = MetricDataFromOtlp(MetricDataToOtlp(md))` has an
indirection of its own: after `md2.SetResourceMetrics(v)` the handle `md2` holds the
other slice and returns its record at index 0, while `md` still holds `g` and returns
the record of `g`; the change made through `md2` is not observed through `md`. -/
theorem FromOtlp_ToOtlp_not_same_handle :
    MetricDataToOtlp graphMd twoGraphHeap = .ok (graphSlice, twoGraphHeap) ∧
    ∃ md2 H1 H2, MetricDataFromOtlp graphSlice twoGraphHeap = .ok (md2, H1) ∧
      md2.orig ≠ graphMd.orig ∧
      md2.SetResourceMetrics otherView H1 = .ok ((), H2) ∧
      MetricDataToOtlp md2 H2 = .ok (otherSlice, H2) ∧
      MetricDataToOtlp graphMd H2 = .ok (graphSlice, H2) ∧
      graphSlice ≠ otherSlice ∧
      md2.ResourceMetrics.Get 0 H2 = .ok (⟨some 1⟩, H2) ∧
      graphMd.ResourceMetrics.Get 0 H2 = .ok (⟨some 0⟩, H2) :=
  ⟨rfl, _, _, _, rfl, by decide, rfl, rfl, rfl, by decide, rfl, rfl⟩

/-- Claim C5, amended. For every valid handle `md` holding the slice `s`,
`md2 = MetricDataFromOtlp(MetricDataToOtlp(md))` holds the same slice `s`: the same
backing array and length, so the same element reference at every index, and the same
value; this stays so after a write at any address other than the two slice variables (a
record, a slot of the backing array), which is therefore observed through both handles.
The indirection of `md2` is a new slice variable, different from the one of `md`:
`SetResourceMetrics` through one handle leaves the other handle holding `s`. -/
theorem FromOtlp_ToOtlp_shares (H : Heap) (md : MetricData) (s : Slice)
    (hto : MetricDataToOtlp md H = .ok (s, H)) :
    ∃ md2 H1, MetricDataFromOtlp s H = .ok (md2, H1) ∧ H.Extends H1 ∧
      MetricDataToOtlp md2 H1 = .ok (s, H1) ∧ MetricDataToOtlp md H1 = .ok (s, H1) ∧
      md2.orig ≠ md.orig ∧ md2.view H1 = md.view H1 ∧
      (∀ i, md2.ResourceMetrics.Get i H1 = md.ResourceMetrics.Get i H1) ∧
      (∀ (a : Addr) (o : Obj), some a ≠ md.orig → some a ≠ md2.orig →
        md2.view (H1.set a o) = md.view (H1.set a o) ∧
        ∀ i, md2.ResourceMetrics.Get i (H1.set a o) =
          md.ResourceMetrics.Get i (H1.set a o)) ∧
      (∀ (v : ResourceMetricsSlice) (H2 : Heap), md2.SetResourceMetrics v H1 = .ok ((), H2) →
        MetricDataToOtlp md H2 = .ok (s, H2)) ∧
      (∀ (v : ResourceMetricsSlice) (H2 : Heap), md.SetResourceMetrics v H1 = .ok ((), H2) →
        MetricDataToOtlp md2 H2 = .ok (s, H2)) := by
  obtain ⟨_, c, hc, hoc⟩ := loadCell_inv hto
  have hclt : c < H.length := lt_length_of_get hoc
  have hne : c ≠ H.length := Nat.ne_of_lt hclt
  have hnew : (H ++ [Obj.cell s])[H.length]? = some (Obj.cell s) :=
    List.getElem?_concat_length _ _
  have hold : (H ++ [Obj.cell s])[c]? = some (Obj.cell s) := by
    rw [List.getElem?_append_left hclt, hoc]
  have hmd : md.orig = some c := hc
  refine ⟨⟨some H.length⟩, H ++ [Obj.cell s], rfl, Heap.Extends.snoc H _,
    MetricDataToOtlp_ok rfl hnew, MetricDataToOtlp_ok hmd hold, ?_, ?_, ?_, ?_, ?_, ?_⟩
  · rw [hmd]
    intro h
    simp only [Option.some.injEq] at h
    exact hne h.symm
  · rw [MetricData.view_eq rfl hnew, MetricData.view_eq hmd hold]
  · intro i
    apply RMSlice_Get_congr
    show loadCell (some H.length) _ = loadCell md.orig _
    rw [hmd, loadCell_ok hnew, loadCell_ok hold]
  · intro a o h1 h2
    rw [hmd] at h1
    have hac : a ≠ c := fun h => h1 (by rw [h])
    have hal : a ≠ H.length := fun h => h2 (by rw [h])
    have hnew2 : ((H ++ [Obj.cell s]).set a o)[H.length]? = some (Obj.cell s) := by
      rw [List.getElem?_set_ne hal, hnew]
    have hold2 : ((H ++ [Obj.cell s]).set a o)[c]? = some (Obj.cell s) := by
      rw [List.getElem?_set_ne hac, hold]
    refine ⟨by rw [MetricData.view_eq rfl hnew2, MetricData.view_eq hmd hold2], ?_⟩
    intro i
    apply RMSlice_Get_congr
    show loadCell (some H.length) _ = loadCell md.orig _
    rw [hmd, loadCell_ok hnew2, loadCell_ok hold2]
  · intro v H2 hset
    obtain ⟨a, b, s0, sv, hma, _, _, _, rfl⟩ := SetResourceMetrics_inv hset
    simp only [Option.some.injEq] at hma
    subst hma
    apply MetricDataToOtlp_ok hmd
    rw [List.getElem?_set_ne (Ne.symm hne), hold]
  · intro v H2 hset
    obtain ⟨a, b, s0, sv, hma, _, _, _, rfl⟩ := SetResourceMetrics_inv hset
    rw [hmd] at hma
    simp only [Option.some.injEq] at hma
    subst hma
    apply MetricDataToOtlp_ok rfl
    rw [List.getElem?_set_ne hne, hnew]

/-- C5 on the heap with two graphs. -/
theorem FromOtlp_ToOtlp_shares_witness :
    MetricDataToOtlp graphMd twoGraphHeap = .ok (graphSlice, twoGraphHeap) ∧
    ∃ md2 H1, MetricDataFromOtlp graphSlice twoGraphHeap = .ok (md2, H1) ∧
      twoGraphHeap.Extends H1 ∧
      MetricDataToOtlp md2 H1 = .ok (graphSlice, H1) ∧
      MetricDataToOtlp graphMd H1 = .ok (graphSlice, H1) ∧
      md2.orig ≠ graphMd.orig ∧ md2.view H1 = graphMd.view H1 ∧
      (∀ i, md2.ResourceMetrics.Get i H1 = graphMd.ResourceMetrics.Get i H1) ∧
      (∀ (a : Addr) (o : Obj), some a ≠ graphMd.orig → some a ≠ md2.orig →
        md2.view (H1.set a o) = graphMd.view (H1.set a o) ∧
        ∀ i, md2.ResourceMetrics.Get i (H1.set a o) =
          graphMd.ResourceMetrics.Get i (H1.set a o)) ∧
      (∀ (v : ResourceMetricsSlice) (H2 : Heap), md2.SetResourceMetrics v H1 = .ok ((), H2) →
        MetricDataToOtlp graphMd H2 = .ok (graphSlice, H2)) ∧
      (∀ (v : ResourceMetricsSlice) (H2 : Heap),
        graphMd.SetResourceMetrics v H1 = .ok ((), H2) →
        MetricDataToOtlp md2 H2 = .ok (graphSlice, H2)) :=
  ⟨rfl, FromOtlp_ToOtlp_shares twoGraphHeap graphMd graphSlice rfl⟩

end OtlpData
